import Mathlib

set_option maxHeartbeats 2000000
set_option maxRecDepth 200000
set_option linter.unusedVariables false

/-!
Verification development for the voronoi-simulated-annealing repository.

The definitions below are a shallow embedding of the Go sources:
  * `voronoi.go`   — the incremental Voronoi growth engine,
  * `simulatedAnnealing.go` — the annealing driver (the float64 variant,
    which is the one carrying `maxHeat` normalisation, `bestTemperature`
    and the 10-percent drift rollback),
  * `model.go`     — the shared data model (`Point`, `TargetImage`).

Go machine integers are modelled as `Int` (no arithmetic in the verified
runs approaches 2^63), `uint8` channel values as `Nat` (with explicit
`≤ 255` well-formedness facts where a bound is needed), `float64` values
as `ℝ`, and nil-able pointers as `Option`.  Randomness (`rand.Rand`) is
made explicit: every random draw becomes an explicit parameter.
-/

/-- Models Go `color.RGBA`: four `uint8` channels.  Channel values produced
by the program are always `≤ 255`; where a proof needs that bound it is
carried as an explicit hypothesis (`RGBAWf`). -/
structure RGBA where
  R : Nat
  G : Nat
  B : Nat
  A : Nat
deriving DecidableEq, Repr

/-- Models `model.go` `Point`: a diagram point with nil-able distance and
color pointers (`Distance *int`, `Color *color.RGBA`). -/
structure Point where
  X : Int
  Y : Int
  Distance : Option Int := none
  Color : Option RGBA := none
deriving DecidableEq, Repr

instance : Inhabited Point := ⟨{ X := 0, Y := 0 }⟩

/-- The pixel-assignment grid `diagram [][] *Point`, as a map from
coordinates to the (nil-able) cell content. -/
def Diagram : Type := Int → Int → Option Point

/-- Pointwise update of one grid cell (`v.diagram[x][y] = ...`). -/
def updCell (d : Diagram) (x y : Int) (val : Option Point) : Diagram :=
  fun a b => if a = x ∧ b = y then val else d a b

/-- Models the `Voronoi` struct of `voronoi.go` (the fields the algorithms
read; the precomputed distance matrix is represented by `distAt` below and
the RNG is externalised). -/
structure VState where
  width : Int
  height : Int
  seeds : List Point
  radius : Int
  activeSeeds : List Point
  movementReductionFactor : Int
  diagram : Diagram

/-- Content of the precomputed distance matrix: `initDistances` stores
`v.distances[i][j] = i*i + j*j` for all `i j < 3*width + height`.  All
lookups performed by the verified runs stay far below that bound (the
radius never exceeds `width + height`), so the table is modelled by its
content. -/
def distAt (i j : Nat) : Int := ((i * i + j * j : Nat) : Int)

/-- `pointFromDiagram` of `voronoi.go`: reads a cell, materialising an
empty `Point{X,Y}` in the grid when the cell is nil. -/
def pointFromDiagram (v : VState) (x y : Int) : VState × Point :=
  match v.diagram x y with
  | none =>
      let p : Point := { X := x, Y := y }
      ({ v with diagram := updCell v.diagram x y (some p) }, p)
  | some p => (v, p)

/-- The claim-rule test of `assignPointToSeed`:
`p.Distance != nil && *p.Distance < distance`. -/
def distLess (o : Option Int) (distance : Int) : Bool :=
  match o with
  | some d => decide (d < distance)
  | none => false

/-- `assignPointToSeed` of `voronoi.go`: tries to claim the pixel at the
offset `(dx,dy)` from `seed`, returning the updated engine state and
whether the claim succeeded. -/
def assignPointToSeed (v : VState) (seed : Point) (distance : Int) (dx dy : Int) :
    VState × Bool :=
  if seed.X + dx < 0 ∨ v.width ≤ seed.X + dx ∨ seed.Y + dy < 0 ∨ v.height ≤ seed.Y + dy then
    (v, false)
  else
    let vp := pointFromDiagram v (seed.X + dx) (seed.Y + dy)
    let v1 := vp.1
    let p := vp.2
    if distLess p.Distance distance then (v1, false)
    else
      let p2 : Point := { X := p.X, Y := p.Y, Distance := some distance, Color := seed.Color }
      ({ v1 with diagram := updCell v1.diagram p.X p.Y (some p2) }, true)

/-- The offset-generation loop of `getIncrementalVectors`, with an explicit
step budget so that the recursion is structural (and hence evaluates inside
the kernel).  Each loop step consumes one unit; `segCombinations` supplies
a budget that is provably sufficient (`segCombinations_eq`). -/
def segCombinationsAux : Nat → Int → Int → List (Int × Int)
  | 0, _, _ => []
  | Nat.succ n, dx, dy =>
      if dy ≤ dx then
        [(dx, dy), (dx, -dy), (-dx, dy), (-dx, -dy),
         (dy, dx), (dy, -dx), (-dy, dx), (-dy, -dx)] ++
          segCombinationsAux n (dx - 1) (dy + 1)
      else []

/-- The offset-generation loop of `getIncrementalVectors`: walks the octant
from `(dx,dy)` while `dx >= dy`, emitting the 8 reflected combinations of
each pair, then stepping `dx--, dy++`. -/
def segCombinations (dx dy : Int) : List (Int × Int) :=
  segCombinationsAux (dx + 2 - dy).toNat dx dy

theorem segCombinationsAux_stop (n : Nat) (dx dy : Int) (h : ¬ dy ≤ dx) :
    segCombinationsAux n dx dy = [] := by
  cases n with
  | zero => rfl
  | succ n => simp [segCombinationsAux, h]

theorem segCombinationsAux_congr (n m : Nat) (dx dy : Int)
    (hn : (dx + 2 - dy).toNat ≤ n) (hm : (dx + 2 - dy).toNat ≤ m) :
    segCombinationsAux n dx dy = segCombinationsAux m dx dy := by
  induction n generalizing m dx dy with
  | zero =>
      have h : ¬ dy ≤ dx := by omega
      rw [segCombinationsAux_stop m dx dy h]
      rfl
  | succ n ih =>
      by_cases h : dy ≤ dx
      · cases m with
        | zero => omega
        | succ m =>
            simp only [segCombinationsAux, h, if_true]
            rw [ih m (dx - 1) (dy + 1) (by omega) (by omega)]
      · rw [segCombinationsAux_stop _ dx dy h, segCombinationsAux_stop _ dx dy h]

/-- The recursive unfolding of the offset-generation loop. -/
theorem segCombinations_eq (dx dy : Int) :
    segCombinations dx dy =
      if dy ≤ dx then
        [(dx, dy), (dx, -dy), (-dx, dy), (-dx, -dy),
         (dy, dx), (dy, -dx), (-dy, dx), (-dy, -dx)] ++
          segCombinations (dx - 1) (dy + 1)
      else [] := by
  by_cases h : dy ≤ dx
  · have h2 : (dx + 2 - dy).toNat = ((dx + 1 - dy).toNat) + 1 := by omega
    simp only [segCombinations, h2, segCombinationsAux, h, if_true]
    rw [segCombinationsAux_congr ((dx + 1 - dy).toNat) ((dx - 1 + 2 - (dy + 1)).toNat)
      (dx - 1) (dy + 1) (by omega) (by omega)]
  · simp only [segCombinations, segCombinationsAux_stop _ dx dy h, h, if_false]

/-- `getIncrementalVectors` of `voronoi.go`: increments the shared radius
and returns the new layer of relative offsets for the grown cell. -/
def getIncrementalVectors (v : VState) : VState × List (Int × Int) :=
  ({ v with radius := v.radius + 1 }, segCombinations (v.radius + 1) 0)

/-- One offset of the inner loop of `Tessellate`: perform the claim and OR
its success into the running `stillActive` flag
(`stillActive = v.assignPointToSeed(...) || stillActive`). -/
def assignStep (seed : Point) (a : VState × Bool) (iv : Int × Int) : VState × Bool :=
  let t := assignPointToSeed a.1 seed (distAt iv.1.natAbs iv.2.natAbs) iv.1 iv.2
  (t.1, t.2 || a.2)

/-- The per-seed body of `Tessellate`: try every incremental offset,
starting from `stillActive = false`. -/
def processSeed (ivs : List (Int × Int)) (v : VState) (seed : Point) : VState × Bool :=
  ivs.foldl (assignStep seed) (v, false)

/-- One active seed of the outer loop of `Tessellate`: the seed is appended
to `stillActiveSeeds` iff one of its claims succeeded. -/
def seedStep (ivs : List (Int × Int)) (acc : VState × List Point) (seed : Point) :
    VState × List Point :=
  let r := processSeed ivs acc.1 seed
  (r.1, if r.2 then acc.2 ++ [seed] else acc.2)

/-- One iteration of the `for len(v.activeSeeds) > 0` loop of `Tessellate`:
grow the radius, extend every active seed by the new layer, and keep the
seeds that could still claim something. -/
def tessellateRound (v : VState) : VState :=
  let gv := getIncrementalVectors v
  let res := gv.1.activeSeeds.foldl (seedStep gv.2) (gv.1, [])
  { res.1 with activeSeeds := res.2 }

/-- The `Tessellate` loop, with an explicit round budget.  The Go loop runs
until the active set empties; `tessellate_terminates` below proves that for
in-bounds seeds the active set is empty within `width + height` rounds, so
the budget used by `Tessellate` is never exhausted. -/
def tessellateLoop : Nat → VState → VState
  | 0, v => v
  | Nat.succ fuel, v =>
      if 0 < v.activeSeeds.length then tessellateLoop fuel (tessellateRound v) else v

/-- `Tessellate` of `voronoi.go`. -/
def Tessellate (v : VState) : VState :=
  tessellateLoop (v.width + v.height).toNat v

/-- The all-nil grid produced by `initDiagram`. -/
def emptyDiagram : Diagram := fun _ _ => none

/-- `initSeeds` stores each generated seed in its own grid cell:
`v.diagram[seed.X][seed.Y] = &seed`. -/
def plantSeed (d : Diagram) (s : Point) : Diagram := updCell d s.X s.Y (some s)

/-- The engine state after `Init()` (`initDiagram` + `initSeeds` +
`initTessellation`) for a given seed list: every seed planted in an
otherwise nil grid, radius 0, all seeds active.  The randomness of
`initSeeds` is externalised: the seed list is a parameter. -/
def initState (width height : Int) (seeds : List Point) (mrf : Int) : VState :=
  { width := width, height := height, seeds := seeds, radius := 0,
    activeSeeds := seeds, movementReductionFactor := mrf,
    diagram := seeds.foldl plantSeed emptyDiagram }

/-- The color of `initSeeds`' generated seeds: `{R:0,G:0,B:0,A:255}`. -/
def blackRGBA : RGBA := { R := 0, G := 0, B := 0, A := 255 }

/-- The seed list generated by `initSeeds`, with the `numSeeds` random
position draws (`r.Intn(width)`, `r.Intn(height)`) externalised as `draw`.
Each seed carries distance 0 and the opaque black color. -/
def initSeedsList (numSeeds : Int) (draw : Nat → Int × Int) : List Point :=
  (List.range numSeeds.toNat).map fun k =>
    { X := (draw k).1, Y := (draw k).2, Distance := some 0, Color := some blackRGBA }

/-- `NewVoronoi` of `voronoi.go`: rejects `numSeeds > width*height`,
otherwise builds the engine and runs `Init()`.  (For negative dimensions
the Go code panics inside `make`; the model covers `width, height ≥ 0`.) -/
def NewVoronoi (width height numSeeds mrf : Int) (draw : Nat → Int × Int) :
    Except String VState :=
  if width * height < numSeeds then
    Except.error "Number of seeds cannot be more than the pixels in the canvas"
  else
    Except.ok (initState width height (initSeedsList numSeeds draw) mrf)

/-- Whether an `Except` result is a success. -/
def exceptOk {ε α : Type _} : Except ε α → Bool
  | Except.ok _ => true
  | Except.error _ => false

/-- `WithSeeds` of `voronoi.go`: replaces the seed list and nothing else. -/
def WithSeeds (v : VState) (seeds : List Point) : VState :=
  { v with seeds := seeds }

/-- The four bytes contributed by one grid cell in `ToPixels`: the cell's
RGBA if assigned and colored, black-transparent otherwise. -/
def cellBytes (v : VState) (i j : Int) : List Nat :=
  match v.diagram i j with
  | some p =>
      match p.Color with
      | some c => [c.R, c.G, c.B, c.A]
      | none => [0, 0, 0, 0]
  | none => [0, 0, 0, 0]

/-- Zero the four bytes at `pos`: the seed-blackening writes of `ToPixels`
(`pixels[pos..pos+3] = 0`). -/
def zeroPix (l : List Nat) (pos : Nat) : List Nat :=
  (((l.set pos 0).set (pos + 1) 0).set (pos + 2) 0).set (pos + 3) 0

/-- `ToPixels` of `voronoi.go`.  The Go double loop writes byte group
`(j*width + i)*4` for each `i < width`, `j < height`, which yields the
row-major buffer enumerated here (rows `j` outer, columns `i` inner);
afterwards every seed's own pixel is overwritten with `(0,0,0,0)` to render
the seeds as black points. -/
def toPixels (v : VState) : List Nat :=
  let base := (List.range v.height.toNat).flatMap (fun j =>
    (List.range v.width.toNat).flatMap (fun i =>
      cellBytes v (Int.ofNat i) (Int.ofNat j)))
  v.seeds.foldl (fun px s => zeroPix px ((s.Y * v.width + s.X) * 4).toNat) base

/-! ## Perturbation (`Perturbate`, `perturbateCoordinate`, `perturbateTint`) -/

/-- Go's `int(x)` conversion from `float64`: truncation toward zero. -/
noncomputable def truncTowardZero (x : ℝ) : Int :=
  if 0 ≤ x then ⌊x⌋ else -⌊-x⌋

/-- `perturbateCoordinate` of `voronoi.go`.  The random draws are explicit:
`u` is the `r.Float64()` draw and `coin` the `r.Intn(2)` draw (so the Go
`multiplier` is `coin*2 - 1`). -/
noncomputable def perturbateCoordinate (mrf : Int) (currentCoordinate maxValue : Int)
    (u : ℝ) (coin : Int) : Int :=
  let movement : ℝ := u * (maxValue : ℝ) / (mrf : ℝ)
  let multiplier : ℝ := ((coin * 2 - 1 : Int) : ℝ)
  let newCoordinate := currentCoordinate + truncTowardZero (multiplier * movement)
  if maxValue ≤ newCoordinate then maxValue - 1
  else if newCoordinate < 0 then 0
  else newCoordinate

/-- `perturbateTint` of `voronoi.go` (always called with `maxValue = 256`).
After the clamp the value lies in `[0, maxValue-1]`, so Go's final `uint8`
conversion is the identity, modelled by `Int.toNat`. -/
noncomputable def perturbateTint (currentTint : Nat) (maxValue : Int)
    (u : ℝ) (coin : Int) : Nat :=
  let movement : ℝ := u * (maxValue : ℝ)
  let multiplier : Int := coin * 2 - 1
  let newTint : Int := (currentTint : Int) + truncTowardZero ((multiplier : ℝ) * movement)
  let clamped : Int :=
    if maxValue ≤ newTint then maxValue - 1
    else if newTint < 0 then 0
    else newTint
  clamped.toNat

/-- The random draws consumed by one `Perturbate` call:
`choice = r.Intn(3)` plus, per coordinate / tint, one `Float64` draw and one
`Intn(2)` draw. -/
structure PerturbRand where
  choice : Nat
  uX : ℝ
  cX : Int
  uY : ℝ
  cY : Int
  uR : ℝ
  cR : Int
  uG : ℝ
  cG : Int
  uB : ℝ
  cB : Int

/-- Dereference of a seed's color pointer (`toPerturbate.Color.R` etc.).
Go would panic on a nil color; every seed the program builds carries a
non-nil color, so the default is never observed in the verified runs. -/
def colorOf (p : Point) : RGBA := p.Color.getD blackRGBA

/-- `Perturbate` of `voronoi.go`.  Note the faithful translation of the Go
branch structure: `willPerturbateCoords := choice == 1`,
`willPerturbateColor := choice == 2`, and the `if choice == 3` block that
would set both — `choice` is drawn with `r.Intn(3)` and therefore lies in
`{0,1,2}`.  The new seed is built without a `Distance` field (Go zero
value: nil).  Afterwards the grid is wiped (`initDiagram`) and the
tessellation is restarted (`initTessellation`). -/
noncomputable def Perturbate (v : VState) (temperature : ℝ) (seedIndex : Nat)
    (rnd : PerturbRand) : VState :=
  let toPerturbate := v.seeds.getD seedIndex default
  let choice := rnd.choice
  let willPerturbateCoords0 := choice == 1
  let willPerturbateColor0 := choice == 2
  let willPerturbateCoords := if choice == 3 then true else willPerturbateCoords0
  let willPerturbateColor := if choice == 3 then true else willPerturbateColor0
  let res : Int × Int × Option RGBA :=
    if willPerturbateCoords then
      (perturbateCoordinate v.movementReductionFactor toPerturbate.X v.width rnd.uX rnd.cX,
       perturbateCoordinate v.movementReductionFactor toPerturbate.Y v.height rnd.uY rnd.cY,
       toPerturbate.Color)
    else if willPerturbateColor then
      (toPerturbate.X, toPerturbate.Y,
       some { A := 255,
              R := perturbateTint (colorOf toPerturbate).R 256 rnd.uR rnd.cR,
              G := perturbateTint (colorOf toPerturbate).G 256 rnd.uG rnd.cG,
              B := perturbateTint (colorOf toPerturbate).B 256 rnd.uB rnd.cB })
    else
      (toPerturbate.X, toPerturbate.Y, toPerturbate.Color)
  let newSeed : Point := { X := res.1, Y := res.2.1, Color := res.2.2 }
  let newSeeds := v.seeds.set seedIndex newSeed
  { v with seeds := newSeeds, diagram := emptyDiagram, radius := 0, activeSeeds := newSeeds }

/-! ## Annealing driver (`simulatedAnnealing.go`, float64 variant) -/

/-- `TargetImage` of `model.go` (the name is immaterial to the core). -/
structure TargetImage where
  Bytes : List Nat
  Width : Int
  Height : Int

/-- The `SimulatedAnnealing` struct (float64 variant): the fields the
algorithms read.  The stat file, clocks and RNG are externalised. -/
structure SAState where
  voronoi : VState
  targetImage : TargetImage
  temperature : ℝ
  maxHeat : ℝ
  bestTemperature : ℝ
  bestSolution : Option (List Point)

/-- `NewSimulatedAnnealing`: `maxHeat = 4 * 255 * W * H`, temperature and
best temperature start at `1.0`, best solution starts nil. -/
noncomputable def NewSimulatedAnnealing (v : VState) (tgt : TargetImage) : SAState :=
  { voronoi := v, targetImage := tgt,
    maxHeat := ((4 * 255 * tgt.Width * tgt.Height : Int) : ℝ),
    bestTemperature := 1.0, bestSolution := none, temperature := 1.0 }

/-- The summation loop of `computeTemperature`: per-byte absolute
differences against the target, iterating over the target's bytes.  (If the
current buffer were shorter than the target, Go would panic on the index;
that case is modelled as stopping — it is unreachable when the target
matches the grid.)  All addends are small integers, so the Go float64
accumulation is exact and is modelled as a `Nat` sum. -/
def computeHeat : List Nat → List Nat → Nat
  | [], _ => 0
  | _ :: _, [] => 0
  | t :: ts, c :: cs => ((t : Int) - (c : Int)).natAbs + computeHeat ts cs

/-- `computeTemperature` of `simulatedAnnealing.go`: normalised heat. -/
noncomputable def computeTemperature (sa : SAState) : ℝ :=
  ((computeHeat sa.targetImage.Bytes (toPixels sa.voronoi) : Nat) : ℝ) / sa.maxHeat

/-- `isAcceptableTemperature` of `simulatedAnnealing.go`:
`sa.temperature` is the first argument, the candidate the second, and `u`
is the `sa.r.Float64()` draw. -/
noncomputable def isAcceptableTemperature (saTemperature temperature u : ℝ) : Bool :=
  if temperature ≤ saTemperature then true
  else
    let percDiff := (temperature - saTemperature) * 100 / saTemperature
    let sigmoid := 2 / (1 + Real.exp (-10 * percDiff)) - 1
    decide (u > sigmoid)

/-- The random draws consumed by one `Iterate` call: for each perturbation
a seed index (the `Intn(len(seeds))` draw) and the voronoi draws, plus the
acceptance draw. -/
structure IterRand where
  perturbs : Nat → Nat × PerturbRand
  accept : ℝ

/-- The perturbation-count computation of `Iterate`:
`perturbations := int(math.Floor(temperature * len(seeds) / 3))`, bumped to
1 when 0; the Go loop `for j := 0; j < perturbations; j++` runs
`max(perturbations, 0)` times, hence the final `Int.toNat`. -/
noncomputable def perturbationCount (sa : SAState) : Nat :=
  let p : Int := ⌊sa.temperature * ((sa.voronoi.seeds.length : Nat) : ℝ) / 3⌋
  (if p = 0 then 1 else p).toNat

/-- The perturbation loop of `Iterate`: apply `n` successive `Perturbate`
calls, each with the (constant) current temperature and its own draws. -/
noncomputable def applyPerturbations (v : VState) (temperature : ℝ) (n : Nat)
    (draws : Nat → Nat × PerturbRand) : VState :=
  (List.range n).foldl
    (fun acc j => Perturbate acc temperature (draws j).1 (draws j).2) v

/-- The perturb–tessellate–score prefix of `Iterate`: returns the
tessellated engine state and the new temperature. -/
noncomputable def iterateCore (sa : SAState) (rnd : IterRand) : VState × ℝ :=
  let v1 := applyPerturbations sa.voronoi sa.temperature (perturbationCount sa) rnd.perturbs
  let v2 := Tessellate v1
  (v2, computeTemperature { sa with voronoi := v2 })

/-- `Iterate` of `simulatedAnnealing.go` (float64 variant).  The three
early-return paths of the Go code become the three branches here:
rejection (restore `currentSeeds`), drift rollback (restore
`bestSolution`, reset the temperature), and commit (update temperature and
possibly the best-solution tracker).  `logIteration` is external I/O and
has no bearing on the state. -/
noncomputable def Iterate (sa : SAState) (rnd : IterRand) : SAState :=
  let currentSeeds := sa.voronoi.seeds
  let core := iterateCore sa rnd
  let v2 := core.1
  let newTemperature := core.2
  if isAcceptableTemperature sa.temperature newTemperature rnd.accept then
    if newTemperature - sa.bestTemperature > sa.bestTemperature / 10 then
      { sa with voronoi := WithSeeds v2 (sa.bestSolution.getD []),
                temperature := sa.bestTemperature }
    else
      let sa1 := { sa with voronoi := v2, temperature := newTemperature }
      if sa1.temperature < sa1.bestTemperature then
        { sa1 with bestTemperature := sa1.temperature,
                   bestSolution := some sa1.voronoi.seeds }
      else sa1
  else
    { sa with voronoi := WithSeeds v2 currentSeeds }

/-! ## Well-formedness predicates and reachability -/

/-- The bound guaranteed by Go's `uint8` channels. -/
def RGBAWf (c : RGBA) : Prop :=
  c.R ≤ 255 ∧ c.G ≤ 255 ∧ c.B ≤ 255 ∧ c.A ≤ 255

/-- A seed as the program maintains it: in-bounds coordinates and (if any)
a `uint8`-valued color. -/
def PointWf (W H : Int) (p : Point) : Prop :=
  0 ≤ p.X ∧ p.X < W ∧ 0 ≤ p.Y ∧ p.Y < H ∧ ∀ c, p.Color = some c → RGBAWf c

def SeedsWf (W H : Int) (l : List Point) : Prop := ∀ p ∈ l, PointWf W H p

/-- Every assigned grid cell carries a `uint8`-valued color (if any). -/
def DiagramColorsWf (v : VState) : Prop :=
  ∀ i j p, v.diagram i j = some p → ∀ c, p.Color = some c → RGBAWf c

/-- A well-formed target image: positive dimensions, a row-major RGBA
buffer of matching length, `uint8` bytes. -/
def TargetWf (tgt : TargetImage) : Prop :=
  1 ≤ tgt.Width ∧ 1 ≤ tgt.Height ∧
  tgt.Bytes.length = 4 * (tgt.Width.toNat * tgt.Height.toNat) ∧
  ∀ b ∈ tgt.Bytes, b ≤ 255

/-- The states the annealing driver can reach: the freshly constructed
state (for a voronoi engine of matching dimensions whose seeds are the
in-bounds, `uint8`-colored ones `Init()` produces), closed under
`Iterate` with arbitrary random draws. -/
inductive Reachable (tgt : TargetImage) : SAState → Prop where
  | init (v : VState) (hw : v.width = tgt.Width) (hh : v.height = tgt.Height)
      (hseeds : SeedsWf v.width v.height v.seeds) :
      Reachable tgt (NewSimulatedAnnealing v tgt)
  | step (sa : SAState) (rnd : IterRand) :
      Reachable tgt sa → Reachable tgt (Iterate sa rnd)

/-- The drift-rollback branch of `Iterate` executes: the new temperature is
accepted and exceeds the best temperature by more than a tenth of it. -/
def driftTaken (sa : SAState) (rnd : IterRand) : Prop :=
  isAcceptableTemperature sa.temperature (iterateCore sa rnd).2 rnd.accept = true ∧
  (iterateCore sa rnd).2 - sa.bestTemperature > sa.bestTemperature / 10

/-! ## C9: monotonic acceptance -/

/-- C9: for every candidate temperature and every annealing state,
`isAcceptableTemperature` returns true whenever the candidate is less than
or equal to the current temperature, regardless of the random draw. -/
theorem C9_monotonic_accept (saTemperature temperature u : ℝ)
    (h : temperature ≤ saTemperature) :
    isAcceptableTemperature saTemperature temperature u = true := by
  simp [isAcceptableTemperature, h]

theorem C9_monotonic_accept_witness :
    (0 : ℝ) ≤ 1 ∧ isAcceptableTemperature 1 0 (1/2) = true :=
  ⟨by norm_num, C9_monotonic_accept 1 0 (1/2) (by norm_num)⟩

/-! ## C8: construction-time validation -/

/-- A fixed RNG draw sequence for seed placement. -/
def drawZero : Nat → Int × Int := fun _ => (0, 0)

/-- C8 counterexample: `NewVoronoi` with `width = height = 0` (non-positive
dimensions, `numSeeds = 0`) succeeds — non-positive width/height is *not*
detected and reported at construction, refuting the claim that
construction fails exactly on invalid configurations including
non-positive dimensions. -/
theorem C8_counterexample :
    exceptOk (NewVoronoi 0 0 0 1 drawZero) = true := rfl

/-- C8 (amended): for non-negative dimensions (negative ones panic inside
Go's `make` rather than returning an error), `NewVoronoi` returns an error
*iff* `numSeeds > width*height`; no other validation is performed, so
non-positive dimensions are not rejected. -/
theorem C8_constructor_error_iff (width height numSeeds mrf : Int)
    (draw : Nat → Int × Int) (hw : 0 ≤ width) (hh : 0 ≤ height) :
    exceptOk (NewVoronoi width height numSeeds mrf draw) = false ↔
      width * height < numSeeds := by
  unfold NewVoronoi
  by_cases h : width * height < numSeeds
  · simp [h, exceptOk]
  · simp [h, exceptOk]

theorem C8_constructor_error_iff_witness :
    (0 : Int) ≤ 2 ∧ (0 : Int) ≤ 3 ∧
      (exceptOk (NewVoronoi 2 3 7 1 drawZero) = false ↔ (2 * 3 : Int) < 7) :=
  ⟨by norm_num, by norm_num,
    C8_constructor_error_iff 2 3 7 1 drawZero (by norm_num) (by norm_num)⟩

/-! ## C3: the perturbation branch split -/

/-- Two concrete seeds for exercising `Perturbate`. -/
def c3seed0 : Point := { X := 2, Y := 3, Distance := some 0, Color := some ⟨7, 8, 9, 255⟩ }

def c3seed1 : Point := { X := 5, Y := 6, Distance := some 0, Color := some ⟨1, 2, 3, 255⟩ }

def c3state : VState := initState 10 10 [c3seed0, c3seed1] 10

/-- A draw with `choice = r.Intn(3) = 0`. -/
noncomputable def c3rand : PerturbRand :=
  { choice := 0, uX := 0, cX := 0, uY := 0, cY := 0,
    uR := 0, cR := 0, uG := 0, cG := 0, uB := 0, cB := 0 }

/-- C3 (code bug evidence): evaluating `Perturbate` at the failing input
`choice = 0` — a draw `r.Intn(3)` produces — perturbs *neither* the
position *nor* the color of the selected seed (the seed is merely copied,
dropping its `Distance` pointer), and the other seed is untouched.  The
`choice == 3` "perturb both" branch of the code is unreachable since
`r.Intn(3) ∈ {0,1,2}`; the intended split position/color/both therefore
degenerates to position/color/nothing. -/
theorem C3_choice_zero_perturbs_nothing :
    (Perturbate c3state 1 0 c3rand).seeds =
      [{ X := 2, Y := 3, Distance := none, Color := some ⟨7, 8, 9, 255⟩ }, c3seed1] := rfl

/-! ## C7: grid reset between tessellations -/

def c7seedA : Point := { X := 0, Y := 0, Distance := some 0, Color := some ⟨1, 2, 3, 255⟩ }

def c7seedB : Point := { X := 0, Y := 0, Distance := some 0, Color := some ⟨9, 9, 9, 255⟩ }

/-- C7 counterexample: change the seed set *via `WithSeeds`* after a
completed tessellation.  At the start of the next `Tessellate` call the
grid is not rebuilt: the stale cell assigned under the old seed set is
still there (and, the active set being empty, `Tessellate` keeps it).  So
it is false that every seed-set change leads to an all-`none` grid at the
start of the next `Tessellate`. -/
theorem C7_counterexample :
    (WithSeeds (Tessellate (initState 1 1 [c7seedA] 10)) [c7seedB]).diagram 0 0 =
        some c7seedA ∧
      Tessellate (WithSeeds (Tessellate (initState 1 1 [c7seedA] 10)) [c7seedB]) =
        WithSeeds (Tessellate (initState 1 1 [c7seedA] 10)) [c7seedB] := by
  constructor
  · decide
  · rfl

/-- C7 (amended): only `Perturbate` rebuilds the grid from scratch — after
any `Perturbate` call every cell is `none`, the radius is reset to 0 and
the new seed list is active, so a `Tessellate` call following a
perturbation starts from an all-`none` grid; `WithSeeds`, by contrast,
replaces the seed list only and leaves grid, radius and active set
untouched.  (In the annealing driver every `Tessellate` is preceded by at
least one `Perturbate`, which is what makes the spec's flow work.) -/
theorem C7_grid_reset (v : VState) (temperature : ℝ) (seedIndex : Nat)
    (rnd : PerturbRand) (i j : Int) (s : List Point) :
    (Perturbate v temperature seedIndex rnd).diagram i j = none ∧
    (Perturbate v temperature seedIndex rnd).radius = 0 ∧
    (Perturbate v temperature seedIndex rnd).activeSeeds =
      (Perturbate v temperature seedIndex rnd).seeds ∧
    (WithSeeds v s).diagram = v.diagram ∧
    (WithSeeds v s).radius = v.radius ∧
    (WithSeeds v s).activeSeeds = v.activeSeeds ∧
    (WithSeeds v s).seeds = s :=
  ⟨rfl, rfl, rfl, rfl, rfl, rfl, rfl⟩

/-! ## C4: the 10×10 single-seed scenario -/

def c4seed : Point := { X := 5, Y := 5, Distance := some 0, Color := some ⟨10, 20, 30, 255⟩ }

def c4state : VState := initState 10 10 [c4seed] 10

/-- C4 counterexample: in the 10×10 single-seed scenario the 4-byte group
of pixel `(5,5)` — bytes 220..223 of the rendered buffer — is `(0,0,0,0)`,
not `(10,20,30,255)`: `ToPixels` overwrites every seed's own pixel with
black-transparent after filling the buffer.  So not every 4-byte group
equals the seed color. -/
theorem C4_counterexample :
    ((toPixels (Tessellate c4state)).drop 220).take 4 = [0, 0, 0, 0] := by decide

/-- C4 (amended): the scenario yields a 400-byte row-major buffer in which
every 4-byte group equals `(10,20,30,255)` *except* the group of the seed
pixel `(5,5)` (group index 55), which `ToPixels` renders as `(0,0,0,0)`. -/
theorem C4_single_seed_buffer :
    toPixels (Tessellate c4state) =
      (List.range 100).flatMap
        (fun p => if p = 55 then [0, 0, 0, 0] else [10, 20, 30, 255]) := by decide

/-! ## C2: the claim rule of `assignPointToSeed` -/

/-- The distance currently stored at a grid cell: `none` when the cell is
nil or its distance pointer is nil ("unset"). -/
def cellDistance (v : VState) (x y : Int) : Option Int :=
  match v.diagram x y with
  | none => none
  | some p => p.Distance

/-- Abbreviation for a single-cell grid write (the shape of every diagram
mutation `assignPointToSeed` performs). -/
def writeCell (v : VState) (x y : Int) (q : Point) : VState :=
  { v with diagram := updCell v.diagram x y (some q) }

/-- C2: for an in-bounds claim attempt, the pixel is overwritten (color
and distance replaced by the claiming seed's, success reported) exactly
when its current distance is unset or not strictly smaller than the
candidate distance; otherwise the state is returned untouched.
Consequently a successful write over a cell that already held a distance
`d` stores a distance `≤ d`.  The hypothesis `hwf` records the grid
invariant that every cell stores its own coordinates (which the program
maintains everywhere). -/
theorem C2_claim_rule (v : VState) (seed : Point) (distance dx dy : Int)
    (hx0 : 0 ≤ seed.X + dx) (hxW : seed.X + dx < v.width)
    (hy0 : 0 ≤ seed.Y + dy) (hyH : seed.Y + dy < v.height)
    (hwf : ∀ x y p, v.diagram x y = some p → p.X = x ∧ p.Y = y) :
    (∀ d, cellDistance v (seed.X + dx) (seed.Y + dy) = some d → d < distance →
       assignPointToSeed v seed distance dx dy = (v, false)) ∧
    ((cellDistance v (seed.X + dx) (seed.Y + dy) = none ∨
      (∃ d, cellDistance v (seed.X + dx) (seed.Y + dy) = some d ∧ ¬ d < distance)) →
      (assignPointToSeed v seed distance dx dy).2 = true ∧
      (assignPointToSeed v seed distance dx dy).1.diagram (seed.X + dx) (seed.Y + dy) =
        some { X := seed.X + dx, Y := seed.Y + dy,
               Distance := some distance, Color := seed.Color } ∧
      (∀ x y, ¬ (x = seed.X + dx ∧ y = seed.Y + dy) →
        (assignPointToSeed v seed distance dx dy).1.diagram x y = v.diagram x y)) ∧
    (∀ d, cellDistance v (seed.X + dx) (seed.Y + dy) = some d →
      (assignPointToSeed v seed distance dx dy).2 = true → distance ≤ d) := by
  have hob : ¬ (seed.X + dx < 0 ∨ v.width ≤ seed.X + dx ∨
      seed.Y + dy < 0 ∨ v.height ≤ seed.Y + dy) := by omega
  cases hcell : v.diagram (seed.X + dx) (seed.Y + dy) with
  | none =>
      have hcd : cellDistance v (seed.X + dx) (seed.Y + dy) = none := by
        simp [cellDistance, hcell]
      have hres : assignPointToSeed v seed distance dx dy =
          (writeCell
            (writeCell v (seed.X + dx) (seed.Y + dy)
              (Point.mk (seed.X + dx) (seed.Y + dy) none none))
            (seed.X + dx) (seed.Y + dy)
            (Point.mk (seed.X + dx) (seed.Y + dy) (some distance) seed.Color),
           true) := by
        simp only [assignPointToSeed, if_neg hob, pointFromDiagram, hcell, distLess,
          Bool.false_eq_true, if_false, writeCell]
      refine ⟨?_, ?_, ?_⟩
      · intro d hd
        rw [hcd] at hd
        cases hd
      · intro _
        rw [hres]
        refine ⟨rfl, ?_, ?_⟩
        · simp [writeCell, updCell]
        · intro x y hxy
          simp [writeCell, updCell, hxy]
      · intro d hd
        rw [hcd] at hd
        cases hd
  | some p =>
      obtain ⟨hpx, hpy⟩ := hwf _ _ p hcell
      have hcd : cellDistance v (seed.X + dx) (seed.Y + dy) = p.Distance := by
        simp [cellDistance, hcell]
      cases hpd : p.Distance with
      | none =>
          have hdl : distLess p.Distance distance = false := by
            simp [distLess, hpd]
          have hres : assignPointToSeed v seed distance dx dy =
              (writeCell v p.X p.Y (Point.mk p.X p.Y (some distance) seed.Color),
               true) := by
            simp only [assignPointToSeed, if_neg hob, pointFromDiagram, hcell, hdl,
              Bool.false_eq_true, if_false, writeCell]
          refine ⟨?_, ?_, ?_⟩
          · intro d hd
            rw [hcd, hpd] at hd
            cases hd
          · intro _
            rw [hres]
            refine ⟨rfl, ?_, ?_⟩
            · rw [hpx, hpy]
              simp [writeCell, updCell]
            · intro x y hxy
              rw [hpx, hpy]
              simp [writeCell, updCell, hxy]
          · intro d hd
            rw [hcd, hpd] at hd
            cases hd
      | some d0 =>
          by_cases hlt : d0 < distance
          · have hdl : distLess p.Distance distance = true := by
              simp [distLess, hpd, hlt]
            have hres : assignPointToSeed v seed distance dx dy = (v, false) := by
              simp only [assignPointToSeed, if_neg hob, pointFromDiagram, hcell, hdl, if_true]
            refine ⟨?_, ?_, ?_⟩
            · intro d hd hdlt
              exact hres
            · rintro (h | ⟨d, hd, hnd⟩)
              · rw [hcd, hpd] at h
                cases h
              · rw [hcd, hpd, Option.some_inj] at hd
                omega
            · intro d hd h2
              rw [hres] at h2
              cases h2
          · have hdl : distLess p.Distance distance = false := by
              simp [distLess, hpd, hlt]
            have hres : assignPointToSeed v seed distance dx dy =
                (writeCell v p.X p.Y (Point.mk p.X p.Y (some distance) seed.Color),
                 true) := by
              simp only [assignPointToSeed, if_neg hob, pointFromDiagram, hcell, hdl,
                Bool.false_eq_true, if_false, writeCell]
            refine ⟨?_, ?_, ?_⟩
            · intro d hd hdlt
              rw [hcd, hpd, Option.some_inj] at hd
              omega
            · intro _
              rw [hres]
              refine ⟨rfl, ?_, ?_⟩
              · rw [hpx, hpy]
                simp [writeCell, updCell]
              · intro x y hxy
                rw [hpx, hpy]
                simp [writeCell, updCell, hxy]
            · intro d hd _
              rw [hcd, hpd, Option.some_inj] at hd
              omega

/-- A concrete engine state for the C2 witness: a 2×1 grid whose cell
`(0,0)` already holds distance 5. -/
def c2state : VState :=
  { width := 2, height := 1, seeds := [], radius := 0, activeSeeds := [],
    movementReductionFactor := 10,
    diagram := updCell emptyDiagram 0 0
      (some { X := 0, Y := 0, Distance := some 5, Color := some ⟨1, 1, 1, 255⟩ }) }

def c2seed : Point := { X := 1, Y := 0, Distance := some 0, Color := some ⟨2, 2, 2, 255⟩ }

theorem C2_claim_rule_witness :
    (0 : Int) ≤ c2seed.X + -1 ∧ c2seed.X + -1 < c2state.width ∧
    (0 : Int) ≤ c2seed.Y + 0 ∧ c2seed.Y + 0 < c2state.height ∧
    ((∀ d, cellDistance c2state (c2seed.X + -1) (c2seed.Y + 0) = some d → d < 3 →
       assignPointToSeed c2state c2seed 3 (-1) 0 = (c2state, false)) ∧
    ((cellDistance c2state (c2seed.X + -1) (c2seed.Y + 0) = none ∨
      (∃ d, cellDistance c2state (c2seed.X + -1) (c2seed.Y + 0) = some d ∧ ¬ d < 3)) →
      (assignPointToSeed c2state c2seed 3 (-1) 0).2 = true ∧
      (assignPointToSeed c2state c2seed 3 (-1) 0).1.diagram (c2seed.X + -1) (c2seed.Y + 0) =
        some { X := c2seed.X + -1, Y := c2seed.Y + 0,
               Distance := some 3, Color := c2seed.Color } ∧
      (∀ x y, ¬ (x = c2seed.X + -1 ∧ y = c2seed.Y + 0) →
        (assignPointToSeed c2state c2seed 3 (-1) 0).1.diagram x y = c2state.diagram x y)) ∧
    (∀ d, cellDistance c2state (c2seed.X + -1) (c2seed.Y + 0) = some d →
      (assignPointToSeed c2state c2seed 3 (-1) 0).2 = true → 3 ≤ d)) := by
  refine ⟨by decide, by decide, by decide, by decide, ?_⟩
  apply C2_claim_rule c2state c2seed 3 (-1) 0 (by decide) (by decide) (by decide) (by decide)
  intro x y p h
  simp only [c2state, updCell, emptyDiagram] at h
  by_cases hxy : x = 0 ∧ y = 0
  · rw [if_pos hxy] at h
    cases h
    exact ⟨hxy.1.symm, hxy.2.symm⟩
  · rw [if_neg hxy] at h
    cases h

/-! ## Ring geometry: the offsets of radius `ρ` are exactly the L1-sphere -/

theorem segCombinationsAux_sound (n : Nat) :
    ∀ (dx dy : Int), 0 ≤ dy → ∀ p ∈ segCombinationsAux n dx dy,
      p.1.natAbs + p.2.natAbs = (dx + dy).toNat := by
  induction n with
  | zero =>
      intro dx dy hdy p hp
      simp only [segCombinationsAux, List.not_mem_nil] at hp
  | succ n ih =>
      intro dx dy hdy ⟨a, b⟩ hp
      by_cases h : dy ≤ dx
      · simp only [segCombinationsAux, h, if_true, List.mem_append] at hp
        rcases hp with hp | hp
        · simp only [List.mem_cons, List.not_mem_nil, or_false, Prod.mk.injEq] at hp
          omega
        · have := ih (dx - 1) (dy + 1) (by omega) (a, b) hp
          simp only at this ⊢
          omega
      · rw [segCombinationsAux_stop _ _ _ h] at hp
        cases hp

/-- Soundness of the offset ring: every generated offset has L1 norm equal
to the radius. -/
theorem ring_sound (ρ : Int) (hρ : 0 ≤ ρ) :
    ∀ p ∈ segCombinations ρ 0, p.1.natAbs + p.2.natAbs = ρ.toNat := by
  intro p hp
  have := segCombinationsAux_sound ((ρ + 2 - 0).toNat) ρ 0 le_rfl p hp
  omega

theorem segCombinationsAux_mem (n : Nat) :
    ∀ (dx dy a b : Int), 0 ≤ b → b ≤ a → dy ≤ b → a ≤ dx → a + b = dx + dy →
      (dx + 2 - dy).toNat ≤ n →
      ∀ p ∈ ([(a, b), (a, -b), (-a, b), (-a, -b),
              (b, a), (b, -a), (-b, a), (-b, -a)] : List (Int × Int)),
        p ∈ segCombinationsAux n dx dy := by
  induction n with
  | zero =>
      intro dx dy a b h0b hba hdb had hsum hn p hp
      omega
  | succ n ih =>
      intro dx dy a b h0b hba hdb had hsum hn p hp
      have hguard : dy ≤ dx := by omega
      simp only [segCombinationsAux, hguard, if_true, List.mem_append]
      by_cases heq : a = dx
      · have hbdy : b = dy := by omega
        subst heq; subst hbdy
        exact Or.inl hp
      · right
        exact ih (dx - 1) (dy + 1) a b h0b hba (by omega) (by omega) (by omega)
          (by omega) p hp

/-- Completeness of the offset ring: every offset of L1 norm `ρ` is
generated. -/
theorem ring_complete (ρ : Int) (x y : Int)
    (hsum : x.natAbs + y.natAbs = ρ.toNat) (hρ : 0 ≤ ρ) :
    (x, y) ∈ segCombinations ρ 0 := by
  unfold segCombinations
  by_cases hc : y.natAbs ≤ x.natAbs
  · refine segCombinationsAux_mem _ ρ 0 (x.natAbs : Int) (y.natAbs : Int)
      (by omega) (by omega) (by omega) (by omega) (by omega) le_rfl (x, y) ?_
    rcases Int.natAbs_eq x with hx | hx <;> rcases Int.natAbs_eq y with hy | hy <;>
      simp only [List.mem_cons, List.not_mem_nil, or_false, Prod.mk.injEq] <;> omega
  · refine segCombinationsAux_mem _ ρ 0 (y.natAbs : Int) (x.natAbs : Int)
      (by omega) (by omega) (by omega) (by omega) (by omega) le_rfl (x, y) ?_
    rcases Int.natAbs_eq x with hx | hx <;> rcases Int.natAbs_eq y with hy | hy <;>
      simp only [List.mem_cons, List.not_mem_nil, or_false, Prod.mk.injEq] <;> omega

/-! ## Behaviour of a single claim attempt -/

theorem assign_fields (v : VState) (seed : Point) (distance dx dy : Int) :
    (assignPointToSeed v seed distance dx dy).1.width = v.width ∧
    (assignPointToSeed v seed distance dx dy).1.height = v.height ∧
    (assignPointToSeed v seed distance dx dy).1.radius = v.radius ∧
    (assignPointToSeed v seed distance dx dy).1.activeSeeds = v.activeSeeds ∧
    (assignPointToSeed v seed distance dx dy).1.seeds = v.seeds ∧
    (assignPointToSeed v seed distance dx dy).1.movementReductionFactor =
      v.movementReductionFactor := by
  unfold assignPointToSeed pointFromDiagram
  split
  · exact ⟨rfl, rfl, rfl, rfl, rfl, rfl⟩
  · cases hcell : v.diagram (seed.X + dx) (seed.Y + dy) with
    | none =>
        simp only [hcell]
        split
        · exact ⟨rfl, rfl, rfl, rfl, rfl, rfl⟩
        · exact ⟨rfl, rfl, rfl, rfl, rfl, rfl⟩
    | some p =>
        simp only [hcell]
        split
        · exact ⟨rfl, rfl, rfl, rfl, rfl, rfl⟩
        · exact ⟨rfl, rfl, rfl, rfl, rfl, rfl⟩

/-- An out-of-bounds claim attempt is a no-op reporting failure. -/
theorem assign_oob (v : VState) (seed : Point) (distance dx dy : Int)
    (h : seed.X + dx < 0 ∨ v.width ≤ seed.X + dx ∨
         seed.Y + dy < 0 ∨ v.height ≤ seed.Y + dy) :
    assignPointToSeed v seed distance dx dy = (v, false) := by
  unfold assignPointToSeed
  rw [if_pos h]

/-- An in-bounds claim attempt over a cell that is empty, or holds its own
coordinates and no strictly smaller distance, writes the claiming seed's
color and distance and reports success, leaving all other cells as they
were. -/
theorem assign_write (v : VState) (seed : Point) (distance dx dy : Int)
    (hx0 : 0 ≤ seed.X + dx) (hxW : seed.X + dx < v.width)
    (hy0 : 0 ≤ seed.Y + dy) (hyH : seed.Y + dy < v.height)
    (hcell : v.diagram (seed.X + dx) (seed.Y + dy) = none ∨
      ∃ q, v.diagram (seed.X + dx) (seed.Y + dy) = some q ∧
        q.X = seed.X + dx ∧ q.Y = seed.Y + dy ∧ distLess q.Distance distance = false) :
    (assignPointToSeed v seed distance dx dy).2 = true ∧
    (assignPointToSeed v seed distance dx dy).1.diagram (seed.X + dx) (seed.Y + dy) =
      some (Point.mk (seed.X + dx) (seed.Y + dy) (some distance) seed.Color) ∧
    (∀ a b, ¬ (a = seed.X + dx ∧ b = seed.Y + dy) →
      (assignPointToSeed v seed distance dx dy).1.diagram a b = v.diagram a b) := by
  have hob : ¬ (seed.X + dx < 0 ∨ v.width ≤ seed.X + dx ∨
      seed.Y + dy < 0 ∨ v.height ≤ seed.Y + dy) := by omega
  rcases hcell with hcell | ⟨q, hcell, hqx, hqy, hql⟩
  · have hres : assignPointToSeed v seed distance dx dy =
        (writeCell
          (writeCell v (seed.X + dx) (seed.Y + dy)
            (Point.mk (seed.X + dx) (seed.Y + dy) none none))
          (seed.X + dx) (seed.Y + dy)
          (Point.mk (seed.X + dx) (seed.Y + dy) (some distance) seed.Color),
         true) := by
      simp only [assignPointToSeed, if_neg hob, pointFromDiagram, hcell, distLess,
        Bool.false_eq_true, if_false, writeCell]
    rw [hres]
    refine ⟨rfl, ?_, ?_⟩
    · simp [writeCell, updCell]
    · intro a b hab
      simp [writeCell, updCell, hab]
  · have hres : assignPointToSeed v seed distance dx dy =
        (writeCell v q.X q.Y (Point.mk q.X q.Y (some distance) seed.Color),
         true) := by
      simp only [assignPointToSeed, if_neg hob, pointFromDiagram, hcell, hql,
        Bool.false_eq_true, if_false, writeCell]
    rw [hres]
    refine ⟨rfl, ?_, ?_⟩
    · rw [hqx, hqy]
      simp [writeCell, updCell]
    · intro a b hab
      rw [hqx, hqy]
      simp [writeCell, updCell, hab]

/-- An in-bounds claim attempt over a cell that already holds a strictly
smaller distance is a no-op reporting failure. -/
theorem assign_skip (v : VState) (seed : Point) (distance dx dy : Int)
    (hx0 : 0 ≤ seed.X + dx) (hxW : seed.X + dx < v.width)
    (hy0 : 0 ≤ seed.Y + dy) (hyH : seed.Y + dy < v.height)
    (hcell : ∃ q, v.diagram (seed.X + dx) (seed.Y + dy) = some q ∧
      distLess q.Distance distance = true) :
    assignPointToSeed v seed distance dx dy = (v, false) := by
  have hob : ¬ (seed.X + dx < 0 ∨ v.width ≤ seed.X + dx ∨
      seed.Y + dy < 0 ∨ v.height ≤ seed.Y + dy) := by omega
  obtain ⟨q, hcell, hql⟩ := hcell
  simp only [assignPointToSeed, if_neg hob, pointFromDiagram, hcell, hql, if_true]

/-- A claim attempt only ever writes cells whose color is nil (the
materialised empty point) or the claiming seed's color: color
well-formedness of the grid is preserved when the seed's color is
well-formed. -/
theorem assign_colorsWf (v : VState) (seed : Point) (distance dx dy : Int)
    (hv : DiagramColorsWf v) (hs : ∀ c, seed.Color = some c → RGBAWf c) :
    DiagramColorsWf (assignPointToSeed v seed distance dx dy).1 := by
  unfold assignPointToSeed pointFromDiagram
  split
  · exact hv
  · cases hcell : v.diagram (seed.X + dx) (seed.Y + dy) with
    | none =>
        simp only [hcell]
        split
        · intro i j p hp c hc
          simp only [updCell] at hp
          split at hp
          · cases hp
            cases hc
          · exact hv _ _ _ hp _ hc
        · intro i j p hp c hc
          simp only [updCell] at hp
          split at hp
          · cases hp
            simp only at hc
            exact hs _ hc
          · exact hv _ _ _ hp _ hc
    | some q =>
        simp only [hcell]
        split
        · exact hv
        · intro i j p hp c hc
          simp only [updCell] at hp
          split at hp
          · cases hp
            simp only at hc
            exact hs _ hc
          · exact hv _ _ _ hp _ hc

/-! ## Behaviour of the per-seed and per-round folds -/

theorem processSeedFold_fields (ivs : List (Int × Int)) (seed : Point) :
    ∀ (v : VState) (b : Bool),
      (ivs.foldl (assignStep seed) (v, b)).1.width = v.width ∧
      (ivs.foldl (assignStep seed) (v, b)).1.height = v.height ∧
      (ivs.foldl (assignStep seed) (v, b)).1.radius = v.radius ∧
      (ivs.foldl (assignStep seed) (v, b)).1.activeSeeds = v.activeSeeds ∧
      (ivs.foldl (assignStep seed) (v, b)).1.seeds = v.seeds := by
  induction ivs with
  | nil =>
      intro v b
      exact ⟨rfl, rfl, rfl, rfl, rfl⟩
  | cons iv ivs ih =>
      intro v b
      simp only [List.foldl_cons, assignStep]
      have h1 := assign_fields v seed (distAt iv.1.natAbs iv.2.natAbs) iv.1 iv.2
      have h2 := ih (assignPointToSeed v seed (distAt iv.1.natAbs iv.2.natAbs) iv.1 iv.2).1
        ((assignPointToSeed v seed (distAt iv.1.natAbs iv.2.natAbs) iv.1 iv.2).2 || b)
      exact ⟨h2.1.trans h1.1, h2.2.1.trans h1.2.1, h2.2.2.1.trans h1.2.2.1,
        h2.2.2.2.1.trans h1.2.2.2.1, h2.2.2.2.2.trans h1.2.2.2.2.1⟩

/-- When every offset of the round lies at L1 distance `≥ W + H - 1`, an
in-bounds seed cannot claim anything: the whole per-seed fold is the
identity. -/
theorem processSeedFold_oob (ivs : List (Int × Int)) (seed : Point) (W H : Int)
    (hsx : 0 ≤ seed.X) (hsxW : seed.X < W) (hsy : 0 ≤ seed.Y) (hsyH : seed.Y < H) :
    ∀ (v : VState) (b : Bool), v.width = W → v.height = H →
      (∀ iv ∈ ivs, (W + H - 1).toNat ≤ iv.1.natAbs + iv.2.natAbs) →
      ivs.foldl (assignStep seed) (v, b) = (v, b) := by
  induction ivs with
  | nil =>
      intro v b _ _ _
      rfl
  | cons iv ivs ih =>
      intro v b hw hh hL
      have hiv := hL iv (List.mem_cons_self _ _)
      have hoob : seed.X + iv.1 < 0 ∨ v.width ≤ seed.X + iv.1 ∨
          seed.Y + iv.2 < 0 ∨ v.height ≤ seed.Y + iv.2 := by
        by_contra hno
        push_neg at hno
        omega
      simp only [List.foldl_cons, assignStep, assign_oob v seed _ iv.1 iv.2 hoob,
        Bool.false_or]
      exact ih v b hw hh (fun iv h => hL iv (List.mem_cons_of_mem _ h))

theorem seedsFold_general (ivs : List (Int × Int)) (active : List Point) :
    ∀ (v : VState) (acc : List Point),
      (active.foldl (seedStep ivs) (v, acc)).1.width = v.width ∧
      (active.foldl (seedStep ivs) (v, acc)).1.height = v.height ∧
      (active.foldl (seedStep ivs) (v, acc)).1.radius = v.radius ∧
      (active.foldl (seedStep ivs) (v, acc)).1.activeSeeds = v.activeSeeds ∧
      (active.foldl (seedStep ivs) (v, acc)).1.seeds = v.seeds ∧
      ∀ s ∈ (active.foldl (seedStep ivs) (v, acc)).2, s ∈ acc ∨ s ∈ active := by
  induction active with
  | nil =>
      intro v acc
      exact ⟨rfl, rfl, rfl, rfl, rfl, fun s hs => Or.inl hs⟩
  | cons seed rest ih =>
      intro v acc
      simp only [List.foldl_cons, seedStep, processSeed]
      have hp := processSeedFold_fields ivs seed v false
      set r := ivs.foldl (assignStep seed) (v, false) with hr
      have h2 := ih r.1 (if r.2 then acc ++ [seed] else acc)
      refine ⟨h2.1.trans hp.1, h2.2.1.trans hp.2.1, h2.2.2.1.trans hp.2.2.1,
        h2.2.2.2.1.trans hp.2.2.2.1, h2.2.2.2.2.1.trans hp.2.2.2.2, ?_⟩
      intro s hs
      rcases h2.2.2.2.2.2 s hs with hacc | hrest
      · by_cases hb : r.2 = true
        · rw [if_pos hb] at hacc
          rcases List.mem_append.mp hacc with h | h
          · exact Or.inl h
          · simp only [List.mem_singleton] at h
            exact Or.inr (by simp [h])
        · rw [if_neg hb] at hacc
          exact Or.inl hacc
      · exact Or.inr (List.mem_cons_of_mem _ hrest)

theorem tessellateRound_general (v : VState) :
    (tessellateRound v).width = v.width ∧
    (tessellateRound v).height = v.height ∧
    (tessellateRound v).radius = v.radius + 1 ∧
    (tessellateRound v).seeds = v.seeds ∧
    ∀ s ∈ (tessellateRound v).activeSeeds, s ∈ v.activeSeeds := by
  unfold tessellateRound getIncrementalVectors
  have h := seedsFold_general (segCombinations (v.radius + 1) 0)
    ({ v with radius := v.radius + 1 }).activeSeeds { v with radius := v.radius + 1 } []
  refine ⟨h.1, h.2.1, h.2.2.1, h.2.2.2.2.1, ?_⟩
  intro s hs
  rcases h.2.2.2.2.2 s hs with hacc | hact
  · cases hacc
  · exact hact

/-- Once the radius has reached `W + H - 2`, the next round deactivates
every in-bounds seed. -/
theorem tessellateRound_kills (v : VState)
    (hW : 1 ≤ v.width) (hH : 1 ≤ v.height)
    (hact : ∀ s ∈ v.activeSeeds, 0 ≤ s.X ∧ s.X < v.width ∧ 0 ≤ s.Y ∧ s.Y < v.height)
    (hrad0 : 0 ≤ v.radius) (hrad : v.width + v.height - 1 ≤ v.radius + 1) :
    (tessellateRound v).activeSeeds = [] := by
  unfold tessellateRound getIncrementalVectors
  have hL : ∀ iv ∈ segCombinations (v.radius + 1) 0,
      (v.width + v.height - 1).toNat ≤ iv.1.natAbs + iv.2.natAbs := by
    intro iv hiv
    have := ring_sound (v.radius + 1) (by omega) iv hiv
    omega
  have hfold : ∀ (active : List Point) (st : VState) (acc : List Point),
      st.width = v.width → st.height = v.height →
      (∀ s ∈ active, 0 ≤ s.X ∧ s.X < v.width ∧ 0 ≤ s.Y ∧ s.Y < v.height) →
      active.foldl (seedStep (segCombinations (v.radius + 1) 0)) (st, acc) = (st, acc) := by
    intro active
    induction active with
    | nil =>
        intro st acc _ _ _
        rfl
    | cons seed rest ih =>
        intro st acc hw hh hin
        have hseed := hin seed (List.mem_cons_self _ _)
        simp only [List.foldl_cons, seedStep, processSeed]
        rw [processSeedFold_oob (segCombinations (v.radius + 1) 0) seed v.width v.height
          hseed.1 hseed.2.1 hseed.2.2.1 hseed.2.2.2 st false hw hh hL]
        simp only [Bool.false_eq_true, if_false]
        exact ih st acc hw hh (fun s hs => hin s (List.mem_cons_of_mem _ hs))
  have hres := hfold v.activeSeeds { v with radius := v.radius + 1 } [] rfl rfl hact
  dsimp only
  rw [hres]

theorem tessellateLoop_empty (fuel : Nat) (v : VState) (h : v.activeSeeds = []) :
    tessellateLoop fuel v = v := by
  cases fuel with
  | zero => rfl
  | succ fuel => simp [tessellateLoop, h]

theorem tessellateLoop_kills : ∀ (fuel : Nat) (v : VState),
    1 ≤ v.width → 1 ≤ v.height →
    (∀ s ∈ v.activeSeeds, 0 ≤ s.X ∧ s.X < v.width ∧ 0 ≤ s.Y ∧ s.Y < v.height) →
    0 ≤ v.radius →
    (v.activeSeeds = [] ∨ v.radius + 1 ≤ v.width + v.height - 1) →
    (v.width + v.height - 1 - v.radius).toNat + 1 ≤ fuel →
    (tessellateLoop fuel v).activeSeeds = [] := by
  intro fuel
  induction fuel with
  | zero =>
      intro v _ _ _ _ _ hn
      omega
  | succ fuel ih =>
      intro v hW hH hact hrad0 hdisj hn
      by_cases hemp : v.activeSeeds = []
      · rw [tessellateLoop_empty _ _ hemp]
        exact hemp
      · have hlen : 0 < v.activeSeeds.length := by
          cases hval : v.activeSeeds with
          | nil => exact absurd hval hemp
          | cons a l => simp [hval]
        simp only [tessellateLoop, if_pos hlen]
        rcases hdisj with hdisj | hrad
        · exact absurd hdisj hemp
        have hg := tessellateRound_general v
        by_cases hbig : v.width + v.height - 1 ≤ v.radius + 1 + 1
        · -- the round about to run empties the active set, or the next one does
          by_cases hnow : v.width + v.height - 1 ≤ v.radius + 1
          · have hkill := tessellateRound_kills v hW hH hact hrad0 hnow
            rw [tessellateLoop_empty _ _ hkill]
            exact hkill
          · -- radius + 2 = W + H - 1: one more round, then the kill round
            apply ih (tessellateRound v) (by omega) (by omega)
            · intro s hs
              have := hact s (hg.2.2.2.2 s hs)
              omega
            · omega
            · right
              omega
            · omega
        · apply ih (tessellateRound v) (by omega) (by omega)
          · intro s hs
            have := hact s (hg.2.2.2.2 s hs)
            omega
          · omega
          · right
            omega
          · omega

/-- C5: for every engine state at the start of a tessellation (radius 0,
as `initTessellation` sets it) whose active seeds all lie in
`[0,W) × [0,H)`, `Tessellate` terminates with an empty active set within
its budget of `W + H` rounds: each round increments the shared radius
once, and no in-bounds seed can claim anything once the radius reaches
`W + H - 1`. -/
theorem C5_tessellate_terminates (v : VState)
    (hW : 1 ≤ v.width) (hH : 1 ≤ v.height) (hrad : v.radius = 0)
    (hact : ∀ s ∈ v.activeSeeds, 0 ≤ s.X ∧ s.X < v.width ∧ 0 ≤ s.Y ∧ s.Y < v.height) :
    (Tessellate v).activeSeeds = [] := by
  unfold Tessellate
  apply tessellateLoop_kills _ v hW hH hact (by omega)
  · right
    omega
  · omega

def c5seed : Point := { X := 1, Y := 0, Distance := some 0, Color := some blackRGBA }

theorem C5_tessellate_terminates_witness :
    (1 : Int) ≤ (initState 3 2 [c5seed] 1).width ∧
    (1 : Int) ≤ (initState 3 2 [c5seed] 1).height ∧
    (initState 3 2 [c5seed] 1).radius = 0 ∧
    (Tessellate (initState 3 2 [c5seed] 1)).activeSeeds = [] := by
  refine ⟨by decide, by decide, rfl, ?_⟩
  apply C5_tessellate_terminates _ (by decide) (by decide) rfl
  intro s hs
  simp only [initState, List.mem_singleton] at hs
  subst hs
  refine ⟨by decide, by decide, by decide, by decide⟩

/-! ## Single-seed coverage (C1): invariants -/

/-- L1 (taxicab) distance of a cell from a seed.  The offset ring of
radius `ρ` targets exactly the cells at `d1 = ρ`. -/
def d1 (s : Point) (i j : Int) : Nat := (i - s.X).natAbs + (j - s.Y).natAbs

/-- The value `assignPointToSeed` stores when seed `s` claims cell
`(i,j)`: own coordinates, the looked-up squared distance, the seed's
color. -/
def wv (s : Point) (i j : Int) : Point :=
  Point.mk i j (some (distAt (i - s.X).natAbs (j - s.Y).natAbs)) s.Color

/-- Mid-round invariant for the single-seed tessellation after `r`
completed rounds: the seed's own cell still holds the seed, every
in-bounds cell at `1 ≤ d1 ≤ r` holds the seed's claim value, cells at
`d1 = r + 1` are untouched or already claimed this round, and cells
farther out are untouched. -/
def MidC1 (W H : Int) (s : Point) (r : Nat) (st : VState) : Prop :=
  st.width = W ∧ st.height = H ∧
  st.diagram s.X s.Y = some s ∧
  (∀ i j, 0 ≤ i → i < W → 0 ≤ j → j < H → 1 ≤ d1 s i j → d1 s i j ≤ r →
      st.diagram i j = some (wv s i j)) ∧
  (∀ i j, 0 ≤ i → i < W → 0 ≤ j → j < H → d1 s i j = r + 1 →
      st.diagram i j = none ∨ st.diagram i j = some (wv s i j)) ∧
  (∀ i j, 0 ≤ i → i < W → 0 ≤ j → j < H → r + 1 < d1 s i j → st.diagram i j = none)

theorem wv_shift (s : Point) (a b : Int) :
    wv s (s.X + a) (s.Y + b) = Point.mk (s.X + a) (s.Y + b)
      (some (distAt a.natAbs b.natAbs)) s.Color := by
  simp [wv, add_sub_cancel_left]

/-- One claim attempt of the single-seed round `r + 1`. -/
theorem assignStep_C1 (W H : Int) (s : Point) (r : Nat)
    (iv : Int × Int) (hiv : iv.1.natAbs + iv.2.natAbs = r + 1)
    (st : VState) (hmid : MidC1 W H s r st) :
    MidC1 W H s r (assignPointToSeed st s (distAt iv.1.natAbs iv.2.natAbs) iv.1 iv.2).1 ∧
    (∀ i j, st.diagram i j = some (wv s i j) →
      (assignPointToSeed st s (distAt iv.1.natAbs iv.2.natAbs) iv.1 iv.2).1.diagram i j =
        some (wv s i j)) ∧
    ((0 ≤ s.X + iv.1 ∧ s.X + iv.1 < W ∧ 0 ≤ s.Y + iv.2 ∧ s.Y + iv.2 < H) →
      (assignPointToSeed st s (distAt iv.1.natAbs iv.2.natAbs) iv.1 iv.2).1.diagram
          (s.X + iv.1) (s.Y + iv.2) = some (wv s (s.X + iv.1) (s.Y + iv.2)) ∧
      (assignPointToSeed st s (distAt iv.1.natAbs iv.2.natAbs) iv.1 iv.2).2 = true) ∧
    (¬ (0 ≤ s.X + iv.1 ∧ s.X + iv.1 < W ∧ 0 ≤ s.Y + iv.2 ∧ s.Y + iv.2 < H) →
      assignPointToSeed st s (distAt iv.1.natAbs iv.2.natAbs) iv.1 iv.2 = (st, false)) := by
  obtain ⟨hw, hh, hseedcell, hlow, hlayer, hhigh⟩ := hmid
  have hd1t : d1 s (s.X + iv.1) (s.Y + iv.2) = r + 1 := by
    simp only [d1]
    omega
  by_cases hib : 0 ≤ s.X + iv.1 ∧ s.X + iv.1 < W ∧ 0 ≤ s.Y + iv.2 ∧ s.Y + iv.2 < H
  · have hcell : st.diagram (s.X + iv.1) (s.Y + iv.2) = none ∨
        ∃ q, st.diagram (s.X + iv.1) (s.Y + iv.2) = some q ∧
          q.X = s.X + iv.1 ∧ q.Y = s.Y + iv.2 ∧
          distLess q.Distance (distAt iv.1.natAbs iv.2.natAbs) = false := by
      rcases hlayer _ _ hib.1 hib.2.1 hib.2.2.1 hib.2.2.2 hd1t with h | h
      · exact Or.inl h
      · refine Or.inr ⟨wv s (s.X + iv.1) (s.Y + iv.2), h, rfl, rfl, ?_⟩
        rw [wv_shift]
        simp [distLess]
    have hwrite := assign_write st s (distAt iv.1.natAbs iv.2.natAbs) iv.1 iv.2
      hib.1 (by omega) hib.2.2.1 (by omega) hcell
    have hfr := hwrite.2.2
    have hne0 : ¬ (s.X = s.X + iv.1 ∧ s.Y = s.Y + iv.2) := by
      rintro ⟨e1, e2⟩
      omega
    refine ⟨⟨?_, ?_, ?_, ?_, ?_, ?_⟩, ?_, ?_, ?_⟩
    · exact (assign_fields st s _ iv.1 iv.2).1.trans hw
    · exact (assign_fields st s _ iv.1 iv.2).2.1.trans hh
    · rw [hfr s.X s.Y hne0]
      exact hseedcell
    · intro i j h1 h2 h3 h4 h5 h6
      have hne : ¬ (i = s.X + iv.1 ∧ j = s.Y + iv.2) := by
        rintro ⟨rfl, rfl⟩
        omega
      rw [hfr i j hne]
      exact hlow i j h1 h2 h3 h4 h5 h6
    · intro i j h1 h2 h3 h4 h5
      by_cases hij : i = s.X + iv.1 ∧ j = s.Y + iv.2
      · obtain ⟨rfl, rfl⟩ := hij
        right
        rw [hwrite.2.1, wv_shift]
      · rw [hfr i j hij]
        exact hlayer i j h1 h2 h3 h4 h5
    · intro i j h1 h2 h3 h4 h5
      have hne : ¬ (i = s.X + iv.1 ∧ j = s.Y + iv.2) := by
        rintro ⟨rfl, rfl⟩
        omega
      rw [hfr i j hne]
      exact hhigh i j h1 h2 h3 h4 h5
    · intro i j hij
      by_cases hne : i = s.X + iv.1 ∧ j = s.Y + iv.2
      · obtain ⟨rfl, rfl⟩ := hne
        rw [hwrite.2.1, wv_shift]
      · rw [hfr i j hne]
        exact hij
    · intro _
      refine ⟨?_, hwrite.1⟩
      rw [hwrite.2.1, wv_shift]
    · intro h
      exact absurd hib h
  · have hoob : assignPointToSeed st s (distAt iv.1.natAbs iv.2.natAbs) iv.1 iv.2 =
        (st, false) := by
      apply assign_oob
      rw [hw, hh]
      omega
    rw [hoob]
    exact ⟨⟨hw, hh, hseedcell, hlow, hlayer, hhigh⟩,
      fun i j h => h, fun h => absurd h hib, fun _ => rfl⟩

/-- The whole per-seed fold of the single-seed round `r + 1`: the mid-round
invariant is maintained, cells already claimed this round stay claimed,
every in-bounds ring target ends up claimed, and the `stillActive` flag is
true iff the accumulator was already true or some ring target was
in-bounds. -/
theorem foldC1 (W H : Int) (s : Point) (r : Nat) :
    ∀ (ivs : List (Int × Int)), (∀ iv ∈ ivs, iv.1.natAbs + iv.2.natAbs = r + 1) →
    ∀ (st : VState) (b : Bool), MidC1 W H s r st →
      MidC1 W H s r (ivs.foldl (assignStep s) (st, b)).1 ∧
      (∀ i j, st.diagram i j = some (wv s i j) →
        (ivs.foldl (assignStep s) (st, b)).1.diagram i j = some (wv s i j)) ∧
      (∀ iv ∈ ivs, (0 ≤ s.X + iv.1 ∧ s.X + iv.1 < W ∧ 0 ≤ s.Y + iv.2 ∧ s.Y + iv.2 < H) →
        (ivs.foldl (assignStep s) (st, b)).1.diagram (s.X + iv.1) (s.Y + iv.2) =
          some (wv s (s.X + iv.1) (s.Y + iv.2))) ∧
      ((ivs.foldl (assignStep s) (st, b)).2 = true ↔ (b = true ∨
        ∃ iv ∈ ivs, 0 ≤ s.X + iv.1 ∧ s.X + iv.1 < W ∧ 0 ≤ s.Y + iv.2 ∧ s.Y + iv.2 < H)) := by
  intro ivs
  induction ivs with
  | nil =>
      intro _ st b hmid
      refine ⟨hmid, fun i j h => h, fun iv hiv => absurd hiv (List.not_mem_nil _), ?_⟩
      simp
  | cons iv ivs ih =>
      intro hL st b hmid
      have hiv := hL iv (List.mem_cons_self _ _)
      have hstep := assignStep_C1 W H s r iv hiv st hmid
      simp only [List.foldl_cons, assignStep]
      by_cases hib : 0 ≤ s.X + iv.1 ∧ s.X + iv.1 < W ∧ 0 ≤ s.Y + iv.2 ∧ s.Y + iv.2 < H
      · have hdone := hstep.2.2.1 hib
        have hrec := ih (fun iv h => hL iv (List.mem_cons_of_mem _ h))
          (assignPointToSeed st s (distAt iv.1.natAbs iv.2.natAbs) iv.1 iv.2).1
          ((assignPointToSeed st s (distAt iv.1.natAbs iv.2.natAbs) iv.1 iv.2).2 || b)
          hstep.1
        refine ⟨hrec.1, ?_, ?_, ?_⟩
        · intro i j h
          exact hrec.2.1 i j (hstep.2.1 i j h)
        · intro jv hjv hjb
          rcases List.mem_cons.mp hjv with rfl | hjv
          · exact hrec.2.1 _ _ hdone.1
          · exact hrec.2.2.1 jv hjv hjb
        · rw [hrec.2.2.2]
          constructor
          · intro _
            exact Or.inr ⟨iv, List.mem_cons_self _ _, hib⟩
          · intro _
            left
            rw [hdone.2]
            simp
      · have hskip := hstep.2.2.2 hib
        rw [hskip]
        simp only [Bool.false_or]
        have hrec := ih (fun iv h => hL iv (List.mem_cons_of_mem _ h)) st b hmid
        refine ⟨hrec.1, hrec.2.1, ?_, ?_⟩
        · intro jv hjv hjb
          rcases List.mem_cons.mp hjv with rfl | hjv
          · exact absurd hjb hib
          · exact hrec.2.2.1 jv hjv hjb
        · rw [hrec.2.2.2]
          constructor
          · rintro (hb | ⟨jv, hjv, hjb⟩)
            · exact Or.inl hb
            · exact Or.inr ⟨jv, List.mem_cons_of_mem _ hjv, hjb⟩
          · rintro (hb | ⟨jv, hjv, hjb⟩)
            · exact Or.inl hb
            · rcases List.mem_cons.mp hjv with rfl | hjv
              · exact absurd hjb hib
              · exact Or.inr ⟨jv, hjv, hjb⟩

/-- Invariant after `r` completed rounds of the single-seed tessellation:
radius `r`, the seed planted in its own cell, every in-bounds cell within
L1 distance `r` claimed with the seed's value, everything farther out
untouched. -/
def InvC1 (W H : Int) (s : Point) (r : Nat) (st : VState) : Prop :=
  st.radius = (r : Int) ∧ st.width = W ∧ st.height = H ∧
  st.diagram s.X s.Y = some s ∧
  (∀ i j, 0 ≤ i → i < W → 0 ≤ j → j < H → 1 ≤ d1 s i j → d1 s i j ≤ r →
      st.diagram i j = some (wv s i j)) ∧
  (∀ i j, 0 ≤ i → i < W → 0 ≤ j → j < H → r < d1 s i j → st.diagram i j = none)

/-- The state-and-flag pair produced by one single-seed round. -/
def roundSingleRes (st : VState) (s : Point) : VState × Bool :=
  (segCombinations (st.radius + 1) 0).foldl (assignStep s)
    ({ st with radius := st.radius + 1 }, false)

theorem tessellateRound_single (st : VState) (s : Point) (hact : st.activeSeeds = [s]) :
    (tessellateRound st).diagram = (roundSingleRes st s).1.diagram ∧
    (tessellateRound st).width = (roundSingleRes st s).1.width ∧
    (tessellateRound st).height = (roundSingleRes st s).1.height ∧
    (tessellateRound st).radius = (roundSingleRes st s).1.radius ∧
    (tessellateRound st).activeSeeds =
      (if (roundSingleRes st s).2 = true then [s] else []) := by
  unfold tessellateRound getIncrementalVectors roundSingleRes
  dsimp only
  rw [hact]
  simp only [List.foldl_cons, List.foldl_nil, seedStep, processSeed, List.nil_append]
  refine ⟨?_, ?_, ?_, ?_, ?_⟩ <;> first | rfl | trivial

/-- One single-seed round: the invariant advances from `r` to `r + 1`, and
the seed stays active iff the new layer contains an in-bounds cell. -/
theorem tessellateRound_C1 (W H : Int) (s : Point) (r : Nat) (st : VState)
    (hinv : InvC1 W H s r st) (hact : st.activeSeeds = [s]) :
    InvC1 W H s (r + 1) (tessellateRound st) ∧
    ((∃ i j, 0 ≤ i ∧ i < W ∧ 0 ≤ j ∧ j < H ∧ d1 s i j = r + 1) →
       (tessellateRound st).activeSeeds = [s]) ∧
    (¬ (∃ i j, 0 ≤ i ∧ i < W ∧ 0 ≤ j ∧ j < H ∧ d1 s i j = r + 1) →
       (tessellateRound st).activeSeeds = []) := by
  obtain ⟨hrad, hw, hh, hseedcell, hlow, hhigh⟩ := hinv
  have hsingle := tessellateRound_single st s hact
  have hring : ∀ iv ∈ segCombinations (st.radius + 1) 0,
      iv.1.natAbs + iv.2.natAbs = r + 1 := by
    intro iv hiv
    have := ring_sound (st.radius + 1) (by omega) iv hiv
    omega
  have hmid : MidC1 W H s r ({ st with radius := st.radius + 1 }) := by
    refine ⟨hw, hh, hseedcell, hlow, ?_, ?_⟩
    · intro i j h1 h2 h3 h4 h5
      left
      exact hhigh i j h1 h2 h3 h4 (by omega)
    · intro i j h1 h2 h3 h4 h5
      exact hhigh i j h1 h2 h3 h4 (by omega)
  have hfold := foldC1 W H s r (segCombinations (st.radius + 1) 0) hring
    ({ st with radius := st.radius + 1 }) false hmid
  have hfields := processSeedFold_fields (segCombinations (st.radius + 1) 0) s
    ({ st with radius := st.radius + 1 }) false
  obtain ⟨hmid', hkeep, htargets, hbool⟩ := hfold
  have hresdiag : (roundSingleRes st s).1.diagram =
      ((segCombinations (st.radius + 1) 0).foldl (assignStep s)
        ({ st with radius := st.radius + 1 }, false)).1.diagram := rfl
  constructor
  · refine ⟨?_, ?_, ?_, ?_, ?_, ?_⟩
    · rw [hsingle.2.2.2.1]
      show ((segCombinations (st.radius + 1) 0).foldl (assignStep s)
        ({ st with radius := st.radius + 1 }, false)).1.radius = ((r : Nat) + 1 : Int)
      rw [hfields.2.2.1]
      show st.radius + 1 = ((r : Nat) + 1 : Int)
      omega
    · rw [hsingle.2.1]
      exact hmid'.1
    · rw [hsingle.2.2.1]
      exact hmid'.2.1
    · rw [hsingle.1]
      exact hmid'.2.2.1
    · intro i j h1 h2 h3 h4 h5 h6
      rw [hsingle.1]
      by_cases hd : d1 s i j ≤ r
      · exact hmid'.2.2.2.1 i j h1 h2 h3 h4 h5 hd
      · have hd1 : d1 s i j = r + 1 := by omega
        have hmem : ((i - s.X), (j - s.Y)) ∈ segCombinations (st.radius + 1) 0 := by
          apply ring_complete
          · simp only [d1] at hd1
            omega
          · omega
        have := htargets _ hmem
        have he1 : s.X + (i - s.X) = i := by omega
        have he2 : s.Y + (j - s.Y) = j := by omega
        rw [he1, he2] at this
        exact this ⟨h1, h2, h3, h4⟩
    · intro i j h1 h2 h3 h4 h5
      rw [hsingle.1]
      exact hmid'.2.2.2.2.2 i j h1 h2 h3 h4 (by omega)
  · constructor
    · rintro ⟨i, j, h1, h2, h3, h4, h5⟩
      rw [hsingle.2.2.2.2]
      have hmem : ((i - s.X), (j - s.Y)) ∈ segCombinations (st.radius + 1) 0 := by
        apply ring_complete
        · simp only [d1] at h5
          omega
        · omega
      have hbt : (roundSingleRes st s).2 = true := by
        show ((segCombinations (st.radius + 1) 0).foldl (assignStep s)
          ({ st with radius := st.radius + 1 }, false)).2 = true
        rw [hbool]
        right
        refine ⟨(i - s.X, j - s.Y), hmem, ?_⟩
        have he1 : s.X + (i - s.X) = i := by omega
        have he2 : s.Y + (j - s.Y) = j := by omega
        rw [he1, he2]
        exact ⟨h1, h2, h3, h4⟩
      rw [hbt]
      simp
    · intro hno
      rw [hsingle.2.2.2.2]
      have hbf : ¬ (roundSingleRes st s).2 = true := by
        show ¬ ((segCombinations (st.radius + 1) 0).foldl (assignStep s)
          ({ st with radius := st.radius + 1 }, false)).2 = true
        rw [hbool]
        rintro (hb | ⟨iv, hiv, hib⟩)
        · cases hb
        · apply hno
          refine ⟨s.X + iv.1, s.Y + iv.2, hib.1, hib.2.1, hib.2.2.1, hib.2.2.2, ?_⟩
          have := hring iv hiv
          simp only [d1]
          omega
      simp [hbf]

/-- Discrete intermediate value for L1 distance: if some in-bounds cell is
at distance `≥ m` from an in-bounds seed, some in-bounds cell is at
distance exactly `m` (walk from the far cell back toward the seed). -/
theorem layer_exists (W H : Int) (s : Point)
    (hsx : 0 ≤ s.X) (hsxW : s.X < W) (hsy : 0 ≤ s.Y) (hsyH : s.Y < H) (m : Nat)
    (hm : ∃ i j, 0 ≤ i ∧ i < W ∧ 0 ≤ j ∧ j < H ∧ m ≤ d1 s i j) :
    ∃ i j, 0 ≤ i ∧ i < W ∧ 0 ≤ j ∧ j < H ∧ d1 s i j = m := by
  obtain ⟨qi, qj, h1, h2, h3, h4, h5⟩ := hm
  simp only [d1] at h5 ⊢
  rcases le_or_lt s.X qi with hxq | hxq <;> rcases le_or_lt s.Y qj with hyq | hyq
  · exact ⟨s.X + ((min (qi - s.X).natAbs m : Nat) : Int),
      s.Y + ((m - min (qi - s.X).natAbs m : Nat) : Int),
      by omega, by omega, by omega, by omega, by omega⟩
  · exact ⟨s.X + ((min (qi - s.X).natAbs m : Nat) : Int),
      s.Y - ((m - min (qi - s.X).natAbs m : Nat) : Int),
      by omega, by omega, by omega, by omega, by omega⟩
  · exact ⟨s.X - ((min (qi - s.X).natAbs m : Nat) : Int),
      s.Y + ((m - min (qi - s.X).natAbs m : Nat) : Int),
      by omega, by omega, by omega, by omega, by omega⟩
  · exact ⟨s.X - ((min (qi - s.X).natAbs m : Nat) : Int),
      s.Y - ((m - min (qi - s.X).natAbs m : Nat) : Int),
      by omega, by omega, by omega, by omega, by omega⟩

/-- The single-seed tessellation loop covers the whole grid: starting from
the invariant after `r` rounds with enough remaining rounds, every
in-bounds cell ends up holding the seed itself (its own cell) or the
seed's claim value. -/
theorem tessellateLoop_C1 (W H : Int) (s : Point)
    (hsx : 0 ≤ s.X) (hsxW : s.X < W) (hsy : 0 ≤ s.Y) (hsyH : s.Y < H) :
    ∀ (fuel : Nat) (st : VState) (r : Nat),
      InvC1 W H s r st →
      (st.activeSeeds = [s] ∨
        (st.activeSeeds = [] ∧
          ∀ i j, 0 ≤ i → i < W → 0 ≤ j → j < H → d1 s i j ≤ r)) →
      (W + H - 1 - (r : Int)).toNat + 1 ≤ fuel →
      ∀ i j, 0 ≤ i → i < W → 0 ≤ j → j < H →
        ((tessellateLoop fuel st).diagram i j = some s ∧ i = s.X ∧ j = s.Y) ∨
        (tessellateLoop fuel st).diagram i j = some (wv s i j) := by
  intro fuel
  induction fuel with
  | zero =>
      intro st r hinv hdisj hfuel
      omega
  | succ fuel ih =>
      intro st r hinv hdisj hfuel i j h1 h2 h3 h4
      rcases hdisj with hact | ⟨hemp, hcov⟩
      · have hlen : 0 < st.activeSeeds.length := by
          rw [hact]
          simp
        simp only [tessellateLoop, if_pos hlen]
        have hround := tessellateRound_C1 W H s r st hinv hact
        by_cases hex : ∃ a b, 0 ≤ a ∧ a < W ∧ 0 ≤ b ∧ b < H ∧ d1 s a b = r + 1
        · have hbound : (r : Int) + 1 ≤ W + H - 2 := by
            obtain ⟨ci, cj, hc1, hc2, hc3, hc4, hc5⟩ := hex
            simp only [d1] at hc5
            omega
          exact ih (tessellateRound st) (r + 1) hround.1 (Or.inl (hround.2.1 hex))
            (by omega) i j h1 h2 h3 h4
        · have hemp' : (tessellateRound st).activeSeeds = [] := hround.2.2 hex
          rw [tessellateLoop_empty fuel _ hemp']
          obtain ⟨hrad', hw', hh', hseed', hlow', hhigh'⟩ := hround.1
          have hd : d1 s i j ≤ r + 1 := by
            by_contra hgt
            exact hex (layer_exists W H s hsx hsxW hsy hsyH (r + 1)
              ⟨i, j, h1, h2, h3, h4, by omega⟩)
          by_cases h0 : d1 s i j = 0
          · have he : i = s.X ∧ j = s.Y := by
              simp only [d1] at h0
              omega
            obtain ⟨rfl, rfl⟩ := he
            exact Or.inl ⟨hseed', rfl, rfl⟩
          · exact Or.inr (hlow' i j h1 h2 h3 h4 (by omega) hd)
      · have hlen : ¬ 0 < st.activeSeeds.length := by
          rw [hemp]
          simp
        simp only [tessellateLoop, if_neg hlen]
        obtain ⟨hrad, hw, hh, hseed, hlow, hhigh⟩ := hinv
        by_cases h0 : d1 s i j = 0
        · have he : i = s.X ∧ j = s.Y := by
            simp only [d1] at h0
            omega
          obtain ⟨rfl, rfl⟩ := he
          exact Or.inl ⟨hseed, rfl, rfl⟩
        · exact Or.inr (hlow i j h1 h2 h3 h4 (by omega) (hcov i j h1 h2 h3 h4))

/-- C1: for any grid with `W, H ≥ 1` and a seed set consisting of exactly
one in-bounds seed (planted by `initSeeds` with a color and distance 0),
running `Tessellate` assigns every in-bounds cell of the W×H grid: every
cell ends up non-none, carrying the seed's color and an assigned
distance. -/
theorem C1_single_seed_coverage (W H mrf : Int) (s : Point) (c : RGBA)
    (hW : 1 ≤ W) (hH : 1 ≤ H)
    (hsx : 0 ≤ s.X) (hsxW : s.X < W) (hsy : 0 ≤ s.Y) (hsyH : s.Y < H)
    (hcol : s.Color = some c) (hdist : s.Distance = some 0) :
    ∀ i j, 0 ≤ i → i < W → 0 ≤ j → j < H →
      ∃ p, (Tessellate (initState W H [s] mrf)).diagram i j = some p ∧
        p.Color = some c ∧ p.Distance ≠ none := by
  intro i j h1 h2 h3 h4
  have hinv : InvC1 W H s 0 (initState W H [s] mrf) := by
    refine ⟨rfl, rfl, rfl, ?_, ?_, ?_⟩
    · simp [initState, plantSeed, updCell, emptyDiagram]
    · intro a b _ _ _ _ h5 h6
      omega
    · intro a b _ _ _ _ h5
      simp only [initState, List.foldl_cons, List.foldl_nil, plantSeed, updCell,
        emptyDiagram]
      rw [if_neg]
      rintro ⟨rfl, rfl⟩
      simp [d1] at h5
  have hT : Tessellate (initState W H [s] mrf) =
      tessellateLoop ((W + H).toNat) (initState W H [s] mrf) := rfl
  rw [hT]
  have hloop := tessellateLoop_C1 W H s hsx hsxW hsy hsyH ((W + H).toNat)
    (initState W H [s] mrf) 0 hinv (Or.inl rfl) (by omega) i j h1 h2 h3 h4
  rcases hloop with ⟨hcell, rfl, rfl⟩ | hcell
  · refine ⟨s, hcell, hcol, ?_⟩
    rw [hdist]
    simp
  · refine ⟨wv s i j, hcell, ?_, ?_⟩
    · simp [wv, hcol]
    · simp [wv]

def c1wseed : Point := { X := 1, Y := 0, Distance := some 0, Color := some ⟨3, 4, 5, 255⟩ }

theorem C1_single_seed_coverage_witness :
    (1 : Int) ≤ 2 ∧ c1wseed.Color = some ⟨3, 4, 5, 255⟩ ∧ c1wseed.Distance = some 0 ∧
    (∃ p, (Tessellate (initState 2 2 [c1wseed] 1)).diagram 0 1 = some p ∧
      p.Color = some ⟨3, 4, 5, 255⟩ ∧ p.Distance ≠ none) :=
  ⟨by norm_num, rfl, rfl,
    C1_single_seed_coverage 2 2 1 c1wseed ⟨3, 4, 5, 255⟩ (by norm_num) (by norm_num)
      (by norm_num [c1wseed]) (by norm_num [c1wseed]) (by norm_num [c1wseed])
      (by norm_num [c1wseed]) rfl rfl 0 1 (by norm_num) (by norm_num) (by norm_num)
      (by norm_num)⟩

/-! ## C6: temperature bounds -/

theorem computeHeat_self (t : List Nat) : computeHeat t t = 0 := by
  induction t with
  | nil => rfl
  | cons b t ih => simp [computeHeat, ih]

theorem computeHeat_le (t : List Nat) :
    ∀ (c : List Nat), (∀ b ∈ t, b ≤ 255) → (∀ b ∈ c, b ≤ 255) →
      computeHeat t c ≤ 255 * t.length := by
  induction t with
  | nil =>
      intro c _ _
      simp [computeHeat]
  | cons b t ih =>
      intro c hbt hbc
      cases c with
      | nil =>
          simp [computeHeat]
      | cons b2 c =>
          have h1 : b ≤ 255 := hbt b (List.mem_cons_self _ _)
          have h2 : b2 ≤ 255 := hbc b2 (List.mem_cons_self _ _)
          have h3 := ih c (fun x hx => hbt x (List.mem_cons_of_mem _ hx))
            (fun x hx => hbc x (List.mem_cons_of_mem _ hx))
          simp only [computeHeat, List.length_cons]
          omega

theorem mem_set_le (l : List Nat) :
    ∀ (n : Nat), (∀ b ∈ l, b ≤ 255) → ∀ b ∈ l.set n 0, b ≤ 255 := by
  induction l with
  | nil =>
      intro n _ b hb
      simp at hb
  | cons x l ih =>
      intro n hl b hb
      cases n with
      | zero =>
          simp only [List.set] at hb
          rcases List.mem_cons.mp hb with rfl | hb
          · omega
          · exact hl b (List.mem_cons_of_mem _ hb)
      | succ n =>
          simp only [List.set] at hb
          rcases List.mem_cons.mp hb with rfl | hb
          · exact hl b (List.mem_cons_self _ _)
          · exact ih n (fun x hx => hl x (List.mem_cons_of_mem _ hx)) b hb

theorem zeroPix_le (l : List Nat) (pos : Nat) (hl : ∀ b ∈ l, b ≤ 255) :
    ∀ b ∈ zeroPix l pos, b ≤ 255 := by
  unfold zeroPix
  exact mem_set_le _ _ (mem_set_le _ _ (mem_set_le _ _ (mem_set_le _ _ hl)))

/-- When every assigned cell carries a `uint8` color, the rendered buffer
is `uint8`-valued. -/
theorem toPixels_le (v : VState) (hv : DiagramColorsWf v) :
    ∀ b ∈ toPixels v, b ≤ 255 := by
  unfold toPixels
  have hbase : ∀ b ∈ (List.range v.height.toNat).flatMap (fun j =>
      (List.range v.width.toNat).flatMap (fun i =>
        cellBytes v (Int.ofNat i) (Int.ofNat j))), b ≤ 255 := by
    intro b hb
    rcases List.mem_flatMap.mp hb with ⟨j, _, hb⟩
    rcases List.mem_flatMap.mp hb with ⟨i, _, hb⟩
    rcases hcell : v.diagram (Int.ofNat i) (Int.ofNat j) with _ | p
    · simp only [cellBytes, hcell] at hb
      simp at hb
      omega
    · simp only [cellBytes, hcell] at hb
      rcases hcol : p.Color with _ | c
      · simp only [hcol] at hb
        simp at hb
        omega
      · simp only [hcol] at hb
        have := hv _ _ _ hcell _ hcol
        simp only [List.mem_cons, List.not_mem_nil, or_false] at hb
        rcases this with ⟨hR, hG, hB, hA⟩
        rcases hb with rfl | rfl | rfl | rfl
        · exact hR
        · exact hG
        · exact hB
        · exact hA
  have hfold : ∀ (seeds : List Point) (l : List Nat), (∀ b ∈ l, b ≤ 255) →
      ∀ b ∈ seeds.foldl (fun px s => zeroPix px ((s.Y * v.width + s.X) * 4).toNat) l,
        b ≤ 255 := by
    intro seeds
    induction seeds with
    | nil => intro l hl; exact hl
    | cons s seeds ih =>
        intro l hl
        simp only [List.foldl_cons]
        exact ih _ (zeroPix_le _ _ hl)
  exact hfold v.seeds _ hbase

/-- Shared core of C6 and the driver invariant: the normalised temperature
of any driver state whose target is well formed, whose `maxHeat` is the
constructor's, and whose grid carries `uint8` colors, lies in `[0, 1]`,
and equals 0 when the rendering matches the target byte for byte. -/
theorem computeTemperature_bounds (sa : SAState)
    (hW : 1 ≤ sa.targetImage.Width) (hH : 1 ≤ sa.targetImage.Height)
    (hlen : sa.targetImage.Bytes.length =
      4 * (sa.targetImage.Width.toNat * sa.targetImage.Height.toNat))
    (hbytes : ∀ b ∈ sa.targetImage.Bytes, b ≤ 255)
    (hmax : sa.maxHeat =
      ((4 * 255 * sa.targetImage.Width * sa.targetImage.Height : Int) : ℝ))
    (hdiag : DiagramColorsWf sa.voronoi) :
    0 ≤ computeTemperature sa ∧ computeTemperature sa ≤ 1 ∧
    (toPixels sa.voronoi = sa.targetImage.Bytes → computeTemperature sa = 0) := by
  have hmaxpos : (0 : ℝ) < sa.maxHeat := by
    rw [hmax]
    have : (0 : Int) < 4 * 255 * sa.targetImage.Width * sa.targetImage.Height := by
      have h1 : (1 : Int) ≤ sa.targetImage.Width * sa.targetImage.Height := by
        nlinarith
      nlinarith
    exact_mod_cast this
  have hheat : computeHeat sa.targetImage.Bytes (toPixels sa.voronoi) ≤
      255 * sa.targetImage.Bytes.length :=
    computeHeat_le _ _ hbytes (toPixels_le _ hdiag)
  have hcast : ((255 * sa.targetImage.Bytes.length : Nat) : ℝ) = sa.maxHeat := by
    rw [hmax, hlen]
    have : ((255 * (4 * (sa.targetImage.Width.toNat * sa.targetImage.Height.toNat))
        : Nat) : Int) = 4 * 255 * sa.targetImage.Width * sa.targetImage.Height := by
      push_cast
      rw [Int.toNat_of_nonneg (by omega), Int.toNat_of_nonneg (by omega)]
      ring
    exact_mod_cast this
  refine ⟨?_, ?_, ?_⟩
  · unfold computeTemperature
    positivity
  · unfold computeTemperature
    rw [div_le_one hmaxpos]
    calc ((computeHeat sa.targetImage.Bytes (toPixels sa.voronoi) : Nat) : ℝ)
        ≤ ((255 * sa.targetImage.Bytes.length : Nat) : ℝ) := by exact_mod_cast hheat
      _ = sa.maxHeat := hcast
  · intro heq
    unfold computeTemperature
    rw [heq, computeHeat_self]
    simp

/-- C6: with a target image buffer of length `4·W·H` matching the grid
(`uint8` bytes, positive dimensions) and a grid whose assigned cells carry
`uint8` colors (as Go's `color.RGBA` guarantees), `computeTemperature` —
the summed per-byte absolute differences divided by
`maxHeat = 4·255·W·H` — always returns a value in `[0,1]`, and returns
exactly 0 when the buffer rendered by `ToPixels` is byte-identical to the
target buffer.  Stated for a driver built by `NewSimulatedAnnealing` over
an arbitrary engine state `v`, which covers every later state since
`Iterate` never changes the target or `maxHeat`. -/
theorem C6_temperature_bounds (v : VState) (tgt : TargetImage)
    (hW : 1 ≤ tgt.Width) (hH : 1 ≤ tgt.Height)
    (hlen : tgt.Bytes.length = 4 * (tgt.Width.toNat * tgt.Height.toNat))
    (hbytes : ∀ b ∈ tgt.Bytes, b ≤ 255)
    (hdiag : DiagramColorsWf v) :
    0 ≤ computeTemperature (NewSimulatedAnnealing v tgt) ∧
    computeTemperature (NewSimulatedAnnealing v tgt) ≤ 1 ∧
    (toPixels v = tgt.Bytes → computeTemperature (NewSimulatedAnnealing v tgt) = 0) :=
  computeTemperature_bounds (NewSimulatedAnnealing v tgt) hW hH hlen hbytes rfl hdiag

def c6state : VState :=
  { width := 1, height := 1, seeds := [], radius := 0, activeSeeds := [],
    movementReductionFactor := 10, diagram := emptyDiagram }

def c6target : TargetImage := { Bytes := [0, 0, 0, 0], Width := 1, Height := 1 }

theorem C6_temperature_bounds_witness :
    (1 : Int) ≤ c6target.Width ∧
    c6target.Bytes.length = 4 * (c6target.Width.toNat * c6target.Height.toNat) ∧
    (0 ≤ computeTemperature (NewSimulatedAnnealing c6state c6target) ∧
     computeTemperature (NewSimulatedAnnealing c6state c6target) ≤ 1 ∧
     (toPixels c6state = c6target.Bytes →
       computeTemperature (NewSimulatedAnnealing c6state c6target) = 0)) :=
  ⟨by norm_num [c6target], by norm_num [c6target],
    C6_temperature_bounds c6state c6target (by norm_num [c6target])
      (by norm_num [c6target]) (by norm_num [c6target])
      (by intro b hb; simp [c6target] at hb; omega)
      (by intro i j p hp c hc; simp [c6state, emptyDiagram] at hp)⟩

/-! ## C10: the drift rollback never installs a nil best solution -/

theorem perturbateCoordinate_bounds (mrf cur maxV : Int) (u : ℝ) (coin : Int)
    (hmax : 1 ≤ maxV) :
    0 ≤ perturbateCoordinate mrf cur maxV u coin ∧
    perturbateCoordinate mrf cur maxV u coin < maxV := by
  simp only [perturbateCoordinate]
  split_ifs <;> omega

theorem perturbateTint_le (t : Nat) (u : ℝ) (coin : Int) :
    perturbateTint t 256 u coin ≤ 255 := by
  simp only [perturbateTint]
  split_ifs <;> omega

theorem getD_mem_or_default (l : List Point) (n : Nat) :
    l.getD n default ∈ l ∨ l.getD n default = default := by
  induction l generalizing n with
  | nil =>
      right
      rfl
  | cons x l ih =>
      cases n with
      | zero =>
          left
          exact List.mem_cons_self _ _
      | succ n =>
          rcases ih n with h | h
          · left
            exact List.mem_cons_of_mem _ h
          · right
            exact h

/-- The seed `Perturbate` installs: the selected index is replaced by a
well-formed seed (in-bounds coordinates, `uint8` color), the rest of the
list is untouched. -/
theorem Perturbate_newSeed (v : VState) (t : ℝ) (idx : Nat) (rnd : PerturbRand)
    (hW : 1 ≤ v.width) (hH : 1 ≤ v.height)
    (htp : PointWf v.width v.height (v.seeds.getD idx default)) :
    ∃ ns, (Perturbate v t idx rnd).seeds = v.seeds.set idx ns ∧
      PointWf v.width v.height ns := by
  unfold Perturbate
  dsimp only
  by_cases h1 : (if rnd.choice == 3 then true else rnd.choice == 1) = true
  · rw [if_pos h1]
    refine ⟨_, rfl, ?_, ?_, ?_, ?_, ?_⟩
    · exact (perturbateCoordinate_bounds _ _ _ _ _ hW).1
    · exact (perturbateCoordinate_bounds _ _ _ _ _ hW).2
    · exact (perturbateCoordinate_bounds _ _ _ _ _ hH).1
    · exact (perturbateCoordinate_bounds _ _ _ _ _ hH).2
    · exact htp.2.2.2.2
  · rw [if_neg h1]
    by_cases h2 : (if rnd.choice == 3 then true else rnd.choice == 2) = true
    · rw [if_pos h2]
      refine ⟨_, rfl, htp.1, htp.2.1, htp.2.2.1, htp.2.2.2.1, ?_⟩
      intro c hc
      cases hc
      exact ⟨perturbateTint_le _ _ _, perturbateTint_le _ _ _,
        perturbateTint_le _ _ _, le_refl 255⟩
    · rw [if_neg h2]
      exact ⟨_, rfl, htp.1, htp.2.1, htp.2.2.1, htp.2.2.2.1, htp.2.2.2.2⟩

theorem Perturbate_seedsWf (v : VState) (t : ℝ) (idx : Nat) (rnd : PerturbRand)
    (hW : 1 ≤ v.width) (hH : 1 ≤ v.height)
    (hwf : SeedsWf v.width v.height v.seeds) :
    SeedsWf v.width v.height (Perturbate v t idx rnd).seeds := by
  have htp : PointWf v.width v.height (v.seeds.getD idx default) := by
    rcases getD_mem_or_default v.seeds idx with h | h
    · exact hwf _ h
    · rw [h]
      show PointWf v.width v.height { X := 0, Y := 0 }
      refine ⟨by dsimp only; omega, by dsimp only; omega, by dsimp only; omega,
        by dsimp only; omega, ?_⟩
      intro c hc
      cases hc
  obtain ⟨ns, hset, hns⟩ := Perturbate_newSeed v t idx rnd hW hH htp
  intro p hp
  rw [hset] at hp
  rcases List.mem_or_eq_of_mem_set hp with h | rfl
  · exact hwf p h
  · exact hns

theorem applyPerturbations_succ (v : VState) (t : ℝ) (n : Nat)
    (draws : Nat → Nat × PerturbRand) :
    applyPerturbations v t (n + 1) draws =
      Perturbate (applyPerturbations v t n draws) t (draws n).1 (draws n).2 := by
  unfold applyPerturbations
  rw [List.range_succ, List.foldl_append]
  rfl

theorem applyPerturbations_basic (t : ℝ) (draws : Nat → Nat × PerturbRand) :
    ∀ (n : Nat) (v : VState), 1 ≤ v.width → 1 ≤ v.height →
      SeedsWf v.width v.height v.seeds →
      (applyPerturbations v t n draws).width = v.width ∧
      (applyPerturbations v t n draws).height = v.height ∧
      SeedsWf v.width v.height (applyPerturbations v t n draws).seeds ∧
      (1 ≤ n → (applyPerturbations v t n draws).diagram = emptyDiagram ∧
        (applyPerturbations v t n draws).activeSeeds =
          (applyPerturbations v t n draws).seeds ∧
        (applyPerturbations v t n draws).radius = 0) := by
  intro n
  induction n with
  | zero =>
      intro v hW hH hwf
      exact ⟨rfl, rfl, hwf, by omega⟩
  | succ n ih =>
      intro v hW hH hwf
      obtain ⟨hw, hh, hwf', _⟩ := ih v hW hH hwf
      rw [applyPerturbations_succ]
      refine ⟨hw, hh, ?_, ?_⟩
      · have := Perturbate_seedsWf (applyPerturbations v t n draws) t
          (draws n).1 (draws n).2 (by omega) (by omega) (by rw [hw, hh]; exact hwf')
        rw [hw, hh] at this
        exact this
      · intro _
        exact ⟨rfl, rfl, rfl⟩

theorem tessellateLoop_fields : ∀ (fuel : Nat) (v : VState),
    (tessellateLoop fuel v).width = v.width ∧
    (tessellateLoop fuel v).height = v.height ∧
    (tessellateLoop fuel v).seeds = v.seeds := by
  intro fuel
  induction fuel with
  | zero =>
      intro v
      exact ⟨rfl, rfl, rfl⟩
  | succ fuel ih =>
      intro v
      by_cases h : 0 < v.activeSeeds.length
      · simp only [tessellateLoop, if_pos h]
        have hr := tessellateRound_general v
        obtain ⟨h1, h2, h3⟩ := ih (tessellateRound v)
        exact ⟨h1.trans hr.1, h2.trans hr.2.1, h3.trans hr.2.2.2.1⟩
      · simp only [tessellateLoop, if_neg h]
        refine ⟨?_, ?_, ?_⟩ <;> first | rfl | trivial

theorem Tessellate_fields (v : VState) :
    (Tessellate v).width = v.width ∧ (Tessellate v).height = v.height ∧
    (Tessellate v).seeds = v.seeds :=
  tessellateLoop_fields _ v

theorem processSeedFold_colorsWf (ivs : List (Int × Int)) (seed : Point)
    (hs : ∀ c, seed.Color = some c → RGBAWf c) :
    ∀ (v : VState) (b : Bool), DiagramColorsWf v →
      DiagramColorsWf (ivs.foldl (assignStep seed) (v, b)).1 := by
  induction ivs with
  | nil =>
      intro v b hv
      exact hv
  | cons iv ivs ih =>
      intro v b hv
      simp only [List.foldl_cons, assignStep]
      exact ih _ _ (assign_colorsWf v seed _ iv.1 iv.2 hv hs)

theorem seedsFold_colorsWf (ivs : List (Int × Int)) :
    ∀ (active : List Point) (v : VState) (acc : List Point),
      DiagramColorsWf v →
      (∀ s ∈ active, ∀ c, s.Color = some c → RGBAWf c) →
      DiagramColorsWf (active.foldl (seedStep ivs) (v, acc)).1 := by
  intro active
  induction active with
  | nil =>
      intro v acc hv _
      exact hv
  | cons seed rest ih =>
      intro v acc hv hact
      simp only [List.foldl_cons, seedStep, processSeed]
      exact ih _ _ (processSeedFold_colorsWf ivs seed
          (hact seed (List.mem_cons_self _ _)) v false hv)
        (fun s hs => hact s (List.mem_cons_of_mem _ hs))

theorem tessellateRound_diagram (v : VState) :
    (tessellateRound v).diagram =
      (v.activeSeeds.foldl (seedStep (segCombinations (v.radius + 1) 0))
        ({ v with radius := v.radius + 1 }, [])).1.diagram := rfl

theorem tessellateRound_colorsWf (v : VState) (hv : DiagramColorsWf v)
    (hact : ∀ s ∈ v.activeSeeds, ∀ c, s.Color = some c → RGBAWf c) :
    DiagramColorsWf (tessellateRound v) := by
  intro i j p hp c hc
  rw [tessellateRound_diagram] at hp
  have hv' : DiagramColorsWf ({ v with radius := v.radius + 1 }) := hv
  exact seedsFold_colorsWf _ v.activeSeeds _ [] hv' hact _ _ _ hp _ hc

theorem tessellateLoop_colorsWf : ∀ (fuel : Nat) (v : VState),
    DiagramColorsWf v →
    (∀ s ∈ v.activeSeeds, ∀ c, s.Color = some c → RGBAWf c) →
    DiagramColorsWf (tessellateLoop fuel v) := by
  intro fuel
  induction fuel with
  | zero =>
      intro v hv _
      exact hv
  | succ fuel ih =>
      intro v hv hact
      by_cases h : 0 < v.activeSeeds.length
      · simp only [tessellateLoop, if_pos h]
        exact ih _ (tessellateRound_colorsWf v hv hact)
          (fun s hs => hact s ((tessellateRound_general v).2.2.2.2 s hs))
      · simp only [tessellateLoop, if_neg h]
        exact hv

theorem Tessellate_colorsWf (v : VState) (hv : DiagramColorsWf v)
    (hact : ∀ s ∈ v.activeSeeds, ∀ c, s.Color = some c → RGBAWf c) :
    DiagramColorsWf (Tessellate v) :=
  tessellateLoop_colorsWf _ v hv hact

/-- The annealing-driver invariant maintained by `Iterate`: matching
dimensions, well-formed seeds (current and best), non-negative
temperatures, the constructor's `maxHeat`, and — the key fact for C10 —
`bestTemperature = 1` as long as `bestSolution` is still nil. -/
def SAInv (tgt : TargetImage) (sa : SAState) : Prop :=
  sa.voronoi.width = tgt.Width ∧ sa.voronoi.height = tgt.Height ∧
  SeedsWf tgt.Width tgt.Height sa.voronoi.seeds ∧
  (∀ l, sa.bestSolution = some l → SeedsWf tgt.Width tgt.Height l) ∧
  (sa.bestSolution = none → sa.bestTemperature = 1) ∧
  0 ≤ sa.temperature ∧ 0 ≤ sa.bestTemperature ∧
  sa.maxHeat = ((4 * 255 * tgt.Width * tgt.Height : Int) : ℝ) ∧
  sa.targetImage = tgt

theorem perturbationCount_pos (sa : SAState) (htemp : 0 ≤ sa.temperature) :
    1 ≤ perturbationCount sa := by
  unfold perturbationCount
  dsimp only
  have hp0 : 0 ≤ ⌊sa.temperature * ((sa.voronoi.seeds.length : Nat) : ℝ) / 3⌋ := by
    apply Int.floor_nonneg.mpr
    apply div_nonneg (mul_nonneg htemp (by positivity)) (by norm_num)
  split_ifs with h
  · omega
  · omega

/-- The perturb–tessellate–score core: dimensions and seed well-formedness
survive, and the new temperature lies in `[0, 1]`. -/
theorem iterateCore_props (tgt : TargetImage) (sa : SAState) (rnd : IterRand)
    (htgt : TargetWf tgt)
    (hw : sa.voronoi.width = tgt.Width) (hh : sa.voronoi.height = tgt.Height)
    (hwf : SeedsWf tgt.Width tgt.Height sa.voronoi.seeds)
    (htemp : 0 ≤ sa.temperature)
    (hmax : sa.maxHeat = ((4 * 255 * tgt.Width * tgt.Height : Int) : ℝ))
    (htgteq : sa.targetImage = tgt) :
    (iterateCore sa rnd).1.width = tgt.Width ∧
    (iterateCore sa rnd).1.height = tgt.Height ∧
    SeedsWf tgt.Width tgt.Height (iterateCore sa rnd).1.seeds ∧
    0 ≤ (iterateCore sa rnd).2 ∧ (iterateCore sa rnd).2 ≤ 1 := by
  obtain ⟨hW, hH, hlen, hbytes⟩ := htgt
  have hwf' : SeedsWf sa.voronoi.width sa.voronoi.height sa.voronoi.seeds := by
    rw [hw, hh]
    exact hwf
  have happ := applyPerturbations_basic sa.temperature rnd.perturbs
    (perturbationCount sa) sa.voronoi (by omega) (by omega) hwf'
  obtain ⟨haw, hah, hawf, hspec⟩ := happ
  obtain ⟨hdiag, hactive, _⟩ := hspec (perturbationCount_pos sa htemp)
  have hcore1 : (iterateCore sa rnd).1 =
      Tessellate (applyPerturbations sa.voronoi sa.temperature
        (perturbationCount sa) rnd.perturbs) := rfl
  have htf := Tessellate_fields
    (applyPerturbations sa.voronoi sa.temperature (perturbationCount sa) rnd.perturbs)
  have hv1wf : DiagramColorsWf
      (applyPerturbations sa.voronoi sa.temperature (perturbationCount sa)
        rnd.perturbs) := by
    intro i j p hp c hc
    rw [hdiag] at hp
    cases hp
  have hv2wf : DiagramColorsWf (iterateCore sa rnd).1 := by
    rw [hcore1]
    apply Tessellate_colorsWf _ hv1wf
    intro s hs c hc
    rw [hactive] at hs
    have hmem : s ∈ sa.voronoi.seeds ∨ PointWf sa.voronoi.width sa.voronoi.height s := by
      right
      exact hawf s hs
    exact (hawf s hs).2.2.2.2 c hc
  have hcore2 : (iterateCore sa rnd).2 =
      computeTemperature { sa with voronoi := (iterateCore sa rnd).1 } := rfl
  have hbounds := computeTemperature_bounds { sa with voronoi := (iterateCore sa rnd).1 }
    (by rw [htgteq]; exact hW) (by rw [htgteq]; exact hH)
    (by rw [htgteq]; exact hlen) (by rw [htgteq]; exact hbytes)
    (by rw [htgteq]; exact hmax) hv2wf
  refine ⟨?_, ?_, ?_, ?_, ?_⟩
  · rw [hcore1, htf.1, haw, hw]
  · rw [hcore1, htf.2.1, hah, hh]
  · rw [hcore1, htf.2.2]
    rw [← hw, ← hh]
    exact hawf
  · rw [hcore2]
    exact hbounds.1
  · rw [hcore2]
    exact hbounds.2.1

/-- Every reachable driver state satisfies the invariant. -/
theorem reachable_SAInv (tgt : TargetImage) (htgt : TargetWf tgt) :
    ∀ sa, Reachable tgt sa → SAInv tgt sa := by
  intro sa h
  induction h with
  | init v hw hh hseeds =>
      refine ⟨hw, hh, ?_, ?_, ?_, ?_, ?_, rfl, rfl⟩
      · rw [← hw, ← hh]
        exact hseeds
      · intro l hl
        cases hl
      · intro _
        norm_num [NewSimulatedAnnealing]
      · norm_num [NewSimulatedAnnealing]
      · norm_num [NewSimulatedAnnealing]
  | step sa rnd hreach ih =>
      obtain ⟨hw, hh, hwf, hbest, hbnone, htemp, hbtemp, hmax, htgteq⟩ := ih
      have hcore := iterateCore_props tgt sa rnd htgt hw hh hwf htemp hmax htgteq
      unfold Iterate
      dsimp only
      by_cases hacc : isAcceptableTemperature sa.temperature (iterateCore sa rnd).2
          rnd.accept = true
      · rw [if_pos hacc]
        by_cases hdrift : (iterateCore sa rnd).2 - sa.bestTemperature >
            sa.bestTemperature / 10
        · rw [if_pos hdrift]
          refine ⟨hcore.1, hcore.2.1, ?_, hbest, hbnone, hbtemp, hbtemp, hmax, htgteq⟩
          cases hbs : sa.bestSolution with
          | none =>
              intro p hp
              simp [WithSeeds, hbs] at hp
          | some l =>
              intro p hp
              simp only [WithSeeds, hbs, Option.getD_some] at hp
              exact hbest l hbs p hp
        · rw [if_neg hdrift]
          by_cases hupd : (iterateCore sa rnd).2 < sa.bestTemperature
          · rw [if_pos hupd]
            refine ⟨hcore.1, hcore.2.1, hcore.2.2.1, ?_, ?_, hcore.2.2.2.1,
              hcore.2.2.2.1, hmax, htgteq⟩
            · intro l hl
              cases hl
              exact hcore.2.2.1
            · intro hcontr
              cases hcontr
          · rw [if_neg hupd]
            exact ⟨hcore.1, hcore.2.1, hcore.2.2.1, hbest, hbnone,
              hcore.2.2.2.1, hbtemp, hmax, htgteq⟩
      · rw [if_neg hacc]
        exact ⟨hcore.1, hcore.2.1, hwf, hbest, hbnone, htemp, hbtemp, hmax, htgteq⟩

/-- C10: in every reachable driver state with a well-formed target, if
`bestSolution` is still nil then the drift-rollback branch of `Iterate`
cannot execute, for any random draws: `bestSolution = nil` forces
`bestTemperature = 1` (it only drops together with a `bestSolution`
assignment), and the freshly computed temperature never exceeds 1, so
`newTemperature - bestTemperature > bestTemperature/10` is unsatisfiable.
Hence the rollback never installs a nil seed set. -/
theorem C10_drift_needs_best (tgt : TargetImage) (sa : SAState) (rnd : IterRand)
    (htgt : TargetWf tgt) (hreach : Reachable tgt sa)
    (hnone : sa.bestSolution = none) :
    ¬ driftTaken sa rnd := by
  obtain ⟨hw, hh, hwf, hbest, hbnone, htemp, hbtemp, hmax, htgteq⟩ :=
    reachable_SAInv tgt htgt sa hreach
  rintro ⟨hacc, hdrift⟩
  have h1 := hbnone hnone
  have hle := (iterateCore_props tgt sa rnd htgt hw hh hwf htemp hmax htgteq).2.2.2.2
  rw [h1] at hdrift
  linarith

def c10seed : Point := { X := 0, Y := 0, Distance := some 0, Color := some blackRGBA }

def c10target : TargetImage := { Bytes := [1, 2, 3, 4], Width := 1, Height := 1 }

noncomputable def c10prand : PerturbRand :=
  { choice := 0, uX := 0, cX := 0, uY := 0, cY := 0,
    uR := 0, cR := 0, uG := 0, cG := 0, uB := 0, cB := 0 }

noncomputable def c10rand : IterRand := { perturbs := fun _ => (0, c10prand), accept := 0 }

theorem C10_drift_needs_best_witness :
    TargetWf c10target ∧
    (NewSimulatedAnnealing (initState 1 1 [c10seed] 10) c10target).bestSolution = none ∧
    ¬ driftTaken (NewSimulatedAnnealing (initState 1 1 [c10seed] 10) c10target)
      c10rand := by
  have htgt : TargetWf c10target := by
    refine ⟨by norm_num [c10target], by norm_num [c10target], by norm_num [c10target], ?_⟩
    intro b hb
    simp [c10target] at hb
    omega
  have hseeds : SeedsWf (initState 1 1 [c10seed] 10).width
      (initState 1 1 [c10seed] 10).height (initState 1 1 [c10seed] 10).seeds := by
    intro p hp
    simp only [initState, List.mem_singleton] at hp
    subst hp
    refine ⟨by decide, by decide, by decide, by decide, ?_⟩
    intro c hc
    cases hc
    exact ⟨by norm_num [blackRGBA], by norm_num [blackRGBA], by norm_num [blackRGBA],
      by norm_num [blackRGBA]⟩
  exact ⟨htgt, rfl,
    C10_drift_needs_best c10target _ c10rand htgt
      (Reachable.init _ rfl rfl hseeds) rfl⟩
